import Mathlib

/-!
Verification of the font-manager stylesheet engine
(`font_manager_server.py`).

Strings are modelled as `List Char`.  The Python regular expressions used by
the source are small enough to be embedded directly as character scanners:

* `re.findall(r"@font-face\s*\x7b[^\x7d]*\x7d", content, DOTALL|IGNORECASE)`
  is a left-to-right non-overlapping scan; at every position it tries to match
  the literal `@font-face` case-insensitively, then greedy whitespace, then an
  opening brace, then a greedy run of non-closing-brace characters, then the
  closing brace.  `DOTALL` is irrelevant because the body class already
  accepts newlines.
* `re.search` tries the pattern at every position from the left and stops at
  the first success.
* `re.sub` rewrites non-overlapping occurrences left to right.

`\s`, `str.strip` and `str.isspace` are modelled for the ASCII whitespace
characters (space, tab, LF, VT, FF, CR); the stylesheets the program
manipulates are ASCII CSS.  `os.path.basename` is modelled with POSIX
semantics (the part after the last slash).
-/

namespace FontManager

/-- ASCII part of Python's whitespace class (`\s`, `str.strip`). -/
def isPySpace (c : Char) : Bool :=
  c = ' ' || c = '\t' || c = '\n' || c = '\r' || c = '\x0b' || c = '\x0c'

/-- A single or double quote character (the regex class contents). -/
def isQuote (c : Char) : Bool :=
  c = '\x27' || c = '\x22'

/-- Python `str.strip()`: remove leading and trailing whitespace. -/
def pyStrip (l : List Char) : List Char :=
  ((l.dropWhile isPySpace).reverse.dropWhile isPySpace).reverse

/-- Python's substring test `pat in l`. -/
def containsSub (pat : List Char) : List Char → Bool
  | [] => pat.isEmpty
  | c :: rest => pat.isPrefixOf (c :: rest) || containsSub pat rest

/-- Case-insensitive match of the literal `pat` at the head of the input;
returns the consumed original characters and the remainder.  This is how
`re.IGNORECASE` compares a literal pattern for the ASCII inputs at hand. -/
def matchPrefixCI : List Char → List Char → Option (List Char × List Char)
  | [], l => some ([], l)
  | _ :: _, [] => none
  | p :: ps, c :: cs =>
    if c.toLower = p.toLower then
      match matchPrefixCI ps cs with
      | some (m, r) => some (c :: m, r)
      | none => none
    else none

/-- The literal of the block pattern. -/
def ffPat : List Char := "@font-face".toList

/-- One attempt of the pattern `@font-face\s*\x7b[^\x7d]*\x7d`
(`DOTALL`, `IGNORECASE`) at the head of `l`.  On success returns the matched
text and the rest of the input. -/
def matchFontFaceAt (l : List Char) : Option (List Char × List Char) :=
  match matchPrefixCI ffPat l with
  | none => none
  | some (m1, r1) =>
    let w := r1.takeWhile isPySpace
    match r1.dropWhile isPySpace with
    | '\x7b' :: r3 =>
      let body := r3.takeWhile (fun c => c ≠ '\x7d')
      match r3.dropWhile (fun c => c ≠ '\x7d') with
      | '\x7d' :: r5 => some (m1 ++ w ++ '\x7b' :: (body ++ ['\x7d']), r5)
      | _ => none
    | _ => none

/-- Fuelled scanner implementing `re.findall` for the block pattern:
try a match at each position, emit it and continue after it, otherwise
advance one character.  A successful match consumes at least eleven
characters, so fuel equal to the input length always suffices. -/
def scanAux : Nat → List Char → List (List Char)
  | 0, _ => []
  | _ + 1, [] => []
  | fuel + 1, c :: rest =>
    match matchFontFaceAt (c :: rest) with
    | some (blk, rest2) => blk :: scanAux fuel rest2
    | none => scanAux fuel rest

/-- Source `get_font_face_blocks`:
`re.findall(r"@font-face\s*\x7b[^\x7d]*\x7d", content, re.DOTALL | re.IGNORECASE)`. -/
def get_font_face_blocks (content : List Char) : List (List Char) :=
  scanAux content.length content

/-- One attempt of `font-family:\s*['"]([^'"]+)['"]` (`IGNORECASE`) at the
head of the input, returning the captured group. -/
def matchFamilyAt (l : List Char) : Option (List Char) :=
  match matchPrefixCI "font-family:".toList l with
  | none => none
  | some (_, r1) =>
    match r1.dropWhile isPySpace with
    | q :: r3 =>
      if isQuote q then
        let g := r3.takeWhile (fun c => !isQuote c)
        if g.isEmpty then none
        else
          match r3.dropWhile (fun c => !isQuote c) with
          | _ :: _ => some g
          | [] => none
      else none
    | [] => none

/-- Searcher (`re.search`) for the `font-family` pattern used by `parse_user_css`. -/
def searchFamily : List Char → Option (List Char)
  | [] => none
  | c :: rest =>
    match matchFamilyAt (c :: rest) with
    | some g => some g
    | none => searchFamily rest

/-- One attempt of `src:\s*url\(['"]([^'"]+)['"]\)` (`IGNORECASE`) at the
head of the input, returning the captured group. -/
def matchSrcAt (l : List Char) : Option (List Char) :=
  match matchPrefixCI "src:".toList l with
  | none => none
  | some (_, r1) =>
    match matchPrefixCI "url(".toList (r1.dropWhile isPySpace) with
    | none => none
    | some (_, r2) =>
      match r2 with
      | q :: r3 =>
        if isQuote q then
          let g := r3.takeWhile (fun c => !isQuote c)
          if g.isEmpty then none
          else
            match r3.dropWhile (fun c => !isQuote c) with
            | _ :: ')' :: _ => some g
            | _ => none
        else none
      | [] => none

/-- Searcher (`re.search`) for the `src` pattern used by `parse_user_css`. -/
def searchSrc : List Char → Option (List Char)
  | [] => none
  | c :: rest =>
    match matchSrcAt (c :: rest) with
    | some g => some g
    | none => searchSrc rest

/-- Python `os.path.basename` (POSIX): the part after the last slash. -/
def basename (p : List Char) : List Char :=
  (p.reverse.takeWhile (fun c => c ≠ '/')).reverse

/-- The per-block step of `parse_user_css`: a block is listed only when both
regex searches succeed. -/
def parse_block (b : List Char) : Option (List Char × List Char) :=
  match searchFamily b, searchSrc b with
  | some f, some s => some (f, basename s)
  | _, _ => none

/-- Source `parse_user_css`, as a function of the stylesheet file
contents (`none` models a missing `user.css`, which yields `[]`).  Returns
the `(fontFamily, fileName)` pairs in block order. -/
def parse_user_css (css : Option (List Char)) : List (List Char × List Char) :=
  match css with
  | none => []
  | some c => (get_font_face_blocks c).filterMap parse_block

/-- The marker comment literal from the source. -/
def markerL : List Char := "/* --- Added by Font Manager Panel --- */".toList

/-- Fuelled rewriter implementing
`re.compile(r"/\* --- Added by Font Manager Panel --- \*/\s*", re.DOTALL).sub('', text)`:
non-overlapping occurrences of the marker comment followed by greedy
whitespace are removed, left to right.  Each removal consumes at least the
marker length, so fuel equal to the input length suffices. -/
def removeMarkerAux : Nat → List Char → List Char
  | 0, l => l
  | fuel + 1, l =>
    if markerL.isPrefixOf l then
      removeMarkerAux fuel ((l.drop markerL.length).dropWhile isPySpace)
    else
      match l with
      | [] => []
      | c :: rest => c :: removeMarkerAux fuel rest

/-- The `comment_pattern.sub('', text)` call of `delete_font`. -/
def removeMarker (l : List Char) : List Char :=
  removeMarkerAux l.length l

/-- Fuelled rewriter implementing Python `text.replace(pat, '')`:
non-overlapping occurrences removed left to right. -/
def replaceAllAux (pat : List Char) : Nat → List Char → List Char
  | 0, l => l
  | fuel + 1, l =>
    if !pat.isEmpty && pat.isPrefixOf l then
      replaceAllAux pat fuel (l.drop pat.length)
    else
      match l with
      | [] => []
      | c :: rest => c :: replaceAllAux pat fuel rest

/-- Python `text.replace(pat, '')`. -/
def replaceAll (pat l : List Char) : List Char :=
  replaceAllAux pat l.length l

/-- The match test shared (textually duplicated) by `delete_font` and
`edit_font`:
`(f"'\x7bfam\x7d'" in block or f'"\x7bfam\x7d"' in block) and (f"/\x7bfileName\x7d" in block)`. -/
def rule_matches (fam fn blk : List Char) : Bool :=
  (containsSub ('\x27' :: (fam ++ ['\x27'])) blk
      || containsSub ('\x22' :: (fam ++ ['\x22'])) blk)
    && containsSub ('/' :: fn) blk

/-- One attempt of `(font-family\s*:\s*['"])([^'"]+)(['"])` (`IGNORECASE`)
at the head of the input, used by `edit_font`'s `re.sub(..., count=1)`.
Returns group 1 (keyword, spaces, colon, spaces, opening quote), group 3
(closing quote) and the remainder after the match. -/
def matchFamDeclAt (l : List Char) : Option (List Char × Char × List Char) :=
  match matchPrefixCI "font-family".toList l with
  | none => none
  | some (m1, r1) =>
    let w1 := r1.takeWhile isPySpace
    match r1.dropWhile isPySpace with
    | ':' :: r3 =>
      let w2 := r3.takeWhile isPySpace
      match r3.dropWhile isPySpace with
      | q :: r5 =>
        if isQuote q then
          let g := r5.takeWhile (fun c => !isQuote c)
          if g.isEmpty then none
          else
            match r5.dropWhile (fun c => !isQuote c) with
            | q2 :: r6 => some (m1 ++ w1 ++ ':' :: (w2 ++ [q]), q2, r6)
            | [] => none
        else none
      | [] => none
    | _ => none

/-- The call `re.sub(r"(font-family\s*:\s*['"])([^'"]+)(['"])", rf"\g<1>NEW\g<3>", block, count=1, IGNORECASE)`:
replace the value of the first `font-family` declaration by `newF`, keeping
the original opening and closing quote characters.  The replacement template
is modelled as inserting `newF` verbatim (faithful whenever `newF` contains
no backslash escape, which the claims never exercise). -/
def replFam (newF : List Char) : List Char → List Char
  | [] => []
  | c :: rest =>
    match matchFamDeclAt (c :: rest) with
    | some (g1, q3, r) => g1 ++ newF ++ q3 :: r
    | none => c :: replFam newF rest

/-- The state the four operations act on: the font asset directory (whether
it exists and which file names it holds), whether the stylesheet's parent
directory exists, and the stylesheet file contents (`none` = missing). -/
structure ServerState where
  fontDirExists : Bool
  fontFiles : List (List Char)
  cssParentExists : Bool
  css : Option (List Char)
deriving DecidableEq

/-- The URL synthesized by `add_font_to_css`. -/
def font_url (fn : List Char) : List Char :=
  "/webfonts/myfonts/".toList ++ fn

/-- The `new_rule` f-string of `add_font_to_css` (a leading newline, the
marker comment, and the block, with a trailing newline). -/
def new_rule (fam w s fn : List Char) : List Char :=
  '\n' :: (markerL ++ "\n@font-face \x7b\n  font-family: \x27".toList ++ fam
    ++ "\x27;\n  src: url(\x27".toList ++ font_url fn
    ++ "\x27);\n  font-weight: ".toList ++ w
    ++ ";\n  font-style: ".toList ++ s ++ ";\n\x7d\n".toList)

/-- Source `add_font_to_css`: opens `user.css` in append mode and
writes `"\n" + new_rule.strip() + "\n"`.  Python's append mode appends when
the file exists, creates the file when it is missing but its parent
directory exists, and raises (caught and turned into HTTP 500) when the
parent directory is missing. -/
def add_font_to_css (st : ServerState) (fam w s fn : List Char) :
    Except Nat ServerState :=
  let data := '\n' :: (pyStrip (new_rule fam w s fn) ++ ['\n'])
  match st.css with
  | some c => Except.ok { st with css := some (c ++ data) }
  | none =>
    if st.cssParentExists then Except.ok { st with css := some data }
    else Except.error 500

/-- Source `upload_font`: `os.makedirs(font_dir, exist_ok=True)`,
then the collision check (HTTP 409), then the byte write, then
`add_font_to_css`.  The second component is the HTTP error code, `none` on
success. -/
def upload_font (st : ServerState) (fn fam w s : List Char) :
    ServerState × Option Nat :=
  let st1 := { st with fontDirExists := true }
  if fn ∈ st1.fontFiles then (st1, some 409)
  else
    let st2 := { st1 with fontFiles := st1.fontFiles ++ [fn] }
    match add_font_to_css st2 fam w s fn with
    | Except.ok st3 => (st3, none)
    | Except.error e => (st2, some e)

/-- The `blocks_to_keep` list accumulated by `delete_font`'s loop: the blocks whose
match test fails. -/
def blocks_to_keep (content fam fn : List Char) : List (List Char) :=
  (get_font_face_blocks content).filter (fun b => !rule_matches fam fn b)

/-- The `deleted_count` of `delete_font`. -/
def deleted_count (content fam fn : List Char) : Nat :=
  (get_font_face_blocks content).countP (fun b => rule_matches fam fn b)

/-- The `other_css_rules` computation of `delete_font`: strip the marker
comments from the whole file, then erase every extracted block text. -/
def delete_other_css_rules (content : List Char) : List Char :=
  (get_font_face_blocks content).foldl (fun acc b => replaceAll b acc)
    (removeMarker content)

/-- The stylesheet rewrite `delete_font` performs when `deleted_count > 0`:
`final_content = (other.strip() + "\n\n" + "\n".join(blocks_to_keep).strip()).strip()`
followed by `update_css_file`, which writes `final_content.strip() + "\n"`. -/
def delete_css_rewrite (content fam fn : List Char) : List Char :=
  let new_content := pyStrip (List.intercalate ['\n'] (blocks_to_keep content fam fn))
  let final := pyStrip
    (pyStrip (delete_other_css_rules content) ++ '\n' :: '\n' :: new_content)
  pyStrip final ++ ['\n']

/-- Source `delete_font`.  The CSS half runs only when the
stylesheet exists and rewrites it only when at least one block matched; the
file half removes the asset when present.  The endpoint returns success in
every one of these cases (the second component is the HTTP error code).
Removal of an existing file is modelled as succeeding; the OS-level
`os.remove` failure path (HTTP 500) is outside the model. -/
def delete_font (st : ServerState) (fam fn : List Char) :
    ServerState × Option Nat :=
  let st1 :=
    match st.css with
    | none => st
    | some content =>
      if 0 < deleted_count content fam fn then
        { st with css := some (delete_css_rewrite content fam fn) }
      else st
  let st2 :=
    if fn ∈ st1.fontFiles then { st1 with fontFiles := st1.fontFiles.erase fn }
    else st1
  (st2, none)

/-- The `new_blocks` list accumulated by `edit_font`'s loop: matching blocks get
their first `font-family` value replaced, the others pass through. -/
def edit_new_blocks (content oldF newF fn : List Char) : List (List Char) :=
  (get_font_face_blocks content).map
    (fun b => if rule_matches oldF fn b then replFam newF b else b)

/-- The `edited_count` of `edit_font`. -/
def edited_count (content oldF fn : List Char) : Nat :=
  (get_font_face_blocks content).countP (fun b => rule_matches oldF fn b)

/-- The `other_css_rules` computation of `edit_font` (no marker stripping):
erase every extracted block text from the file. -/
def edit_other_css_rules (content : List Char) : List Char :=
  (get_font_face_blocks content).foldl (fun acc b => replaceAll b acc) content

/-- The stylesheet rewrite `edit_font` performs when `edited_count > 0`:
`final_content = (other.strip() + "\n\n" + "\n".join(new_blocks)).strip()`
followed by `update_css_file`'s `final_content.strip() + "\n"`. -/
def edit_css_rewrite (content oldF newF fn : List Char) : List Char :=
  let final := pyStrip
    (pyStrip (edit_other_css_rules content) ++ '\n' :: '\n' ::
      List.intercalate ['\n'] (edit_new_blocks content oldF newF fn))
  pyStrip final ++ ['\n']

/-- Source `edit_font`: a missing stylesheet is HTTP 404; zero
matching blocks is HTTP 404 with no write; otherwise the rewrite is
written. -/
def edit_font (st : ServerState) (oldF newF fn : List Char) :
    ServerState × Option Nat :=
  match st.css with
  | none => (st, some 404)
  | some content =>
    if 0 < edited_count content oldF fn then
      ({ st with css := some (edit_css_rewrite content oldF newF fn) }, none)
    else (st, some 404)

/-- Source `get_current_user`: a falsy configured key (absent or
empty) admits every request; otherwise the bearer token must equal the key
or HTTP 401 is raised. -/
def get_current_user (apiKey : Option String) (credentials : Option String) :
    Except Nat String :=
  match apiKey with
  | none => Except.ok "admin"
  | some k =>
    if k = "" then Except.ok "admin"
    else
      match credentials with
      | some t => if t = k then Except.ok "admin" else Except.error 401
      | none => Except.error 401

/-- Modelled from the spec (the identity rule of claim C1, for comparison
with the code's `rule_matches`): the block's `font-family` value — the
quoted string its `font-family` declaration carries, extracted exactly as
`parse_user_css` extracts it — textually equals `fam`, and the block's
`src` path ends with `/fn`. -/
def spec_same_rule (blk fam fn : List Char) : Bool :=
  (match searchFamily blk with
   | some f => f == fam
   | none => false)
  && (match searchSrc blk with
      | some p => ('/' :: fn).isSuffixOf p
      | none => false)

/-! ### Scaffolding for the general theorems

A stylesheet "containing N font-face blocks" is formalised as an
interleaving of plain segments and block texts.  `ciPre`/`hasFFCI` express
"a case-insensitive occurrence of `@font-face` starts here / anywhere";
`SegClean` is the stronger condition that a segment has no character that
lowercases to `'@'` (hence cannot start any block pattern or block text);
`isBlockChars`/`BlockNice` say a string is exactly one block as the block
regex recognises it (plus, for `BlockNice`, that its interior cannot alias
other blocks or the marker). -/

/-- Whether `pat` is a case-insensitive prefix of `l`. -/
def ciPre : List Char → List Char → Bool
  | [], _ => true
  | _ :: _, [] => false
  | p :: ps, c :: cs => (c.toLower = p.toLower) && ciPre ps cs

/-- Some case-insensitive occurrence of `@font-face` starts inside `l`. -/
def hasFFCI : List Char → Bool
  | [] => false
  | c :: rest => ciPre ffPat (c :: rest) || hasFFCI rest

/-- No character of the segment lowercases to `'@'`. -/
def SegClean (s : List Char) : Prop := ∀ c ∈ s, c.toLower ≠ '@'

instance (s : List Char) : Decidable (SegClean s) :=
  inferInstanceAs (Decidable (∀ c ∈ s, c.toLower ≠ '@'))

/-- Whether `b` is exactly one font-face block: the block matcher succeeds at its
head and consumes all of it. -/
def isBlockChars (b : List Char) : Bool :=
  match matchFontFaceAt b with
  | some (_, rest) => rest.isEmpty
  | none => false

/-- A block that is well separated from its context: it is exactly one
block, its interior (everything after the leading `'@'`) has no character
lowercasing to `'@'`, and the marker comment does not occur inside it. -/
def BlockNice (b : List Char) : Prop :=
  isBlockChars b = true ∧ (∀ c ∈ b.tail, c.toLower ≠ '@')
    ∧ containsSub markerL b = false

instance (b : List Char) : Decidable (BlockNice b) :=
  inferInstanceAs (Decidable (isBlockChars b = true
    ∧ (∀ c ∈ b.tail, c.toLower ≠ '@') ∧ containsSub markerL b = false))

/-- Interleave segments and blocks: `s0 b1 s1 b2 … bn tail`. -/
def interleaveF : List (List Char × List Char) → List Char → List Char
  | [], tailSeg => tailSeg
  | (s, b) :: rest, tailSeg => s ++ b ++ interleaveF rest tailSeg

/-- A stream of raw-segment (`inl`) and block (`inr`) items. -/
def flattenS : List (List Char ⊕ List Char) → List Char
  | [] => []
  | Sum.inl s :: rest => s ++ flattenS rest
  | Sum.inr b :: rest => b ++ flattenS rest

/-- The stream of an interleaving. -/
def toStream : List (List Char × List Char) → List Char →
    List (List Char ⊕ List Char)
  | [], tailSeg => [Sum.inl tailSeg]
  | (s, b) :: rest, tailSeg => Sum.inl s :: Sum.inr b :: toStream rest tailSeg

/-- Every segment item of a stream is clean and every block item is nice. -/
def streamOK (str : List (List Char ⊕ List Char)) : Prop :=
  ∀ it ∈ str, Sum.elim SegClean BlockNice it

/-- Remove every block item equal to `x` from a stream. -/
def removeBlockS (x : List Char) (str : List (List Char ⊕ List Char)) :
    List (List Char ⊕ List Char) :=
  str.filter (fun it => it ≠ Sum.inr x)

/-- The concatenation of the segments of an interleaving (what remains when
every block is erased). -/
def segsConcat : List (List Char × List Char) → List Char → List Char
  | [], tailSeg => tailSeg
  | (s, _) :: rest, tailSeg => s ++ segsConcat rest tailSeg

/-! ## Theorems -/

/-! ### Lemmas about the case-insensitive literal matcher -/

theorem matchPrefixCI_eq_append :
    ∀ (pat l m r : List Char), matchPrefixCI pat l = some (m, r) → l = m ++ r
  | [], l, m, r, h => by
    simp only [matchPrefixCI, Option.some.injEq, Prod.mk.injEq] at h
    simp [← h.1, ← h.2]
  | p :: ps, [], m, r, h => by
    simp [matchPrefixCI] at h
  | p :: ps, c :: cs, m, r, h => by
    unfold matchPrefixCI at h
    split at h
    · cases hrec : matchPrefixCI ps cs with
      | none => rw [hrec] at h; cases h
      | some mr =>
        obtain ⟨m', r'⟩ := mr
        rw [hrec] at h
        simp only [Option.some.injEq, Prod.mk.injEq] at h
        obtain ⟨hm, hr⟩ := h
        have := matchPrefixCI_eq_append ps cs m' r' hrec
        simp [← hm, ← hr, this]
    · cases h

theorem matchPrefixCI_length :
    ∀ (pat l m r : List Char), matchPrefixCI pat l = some (m, r) →
      m.length = pat.length
  | [], l, m, r, h => by
    simp only [matchPrefixCI, Option.some.injEq, Prod.mk.injEq] at h
    simp [← h.1]
  | p :: ps, [], m, r, h => by
    simp [matchPrefixCI] at h
  | p :: ps, c :: cs, m, r, h => by
    unfold matchPrefixCI at h
    split at h
    · cases hrec : matchPrefixCI ps cs with
      | none => rw [hrec] at h; cases h
      | some mr =>
        obtain ⟨m', r'⟩ := mr
        rw [hrec] at h
        simp only [Option.some.injEq, Prod.mk.injEq] at h
        have := matchPrefixCI_length ps cs m' r' hrec
        simp [← h.1, this]
    · cases h

theorem matchPrefixCI_append_right :
    ∀ (pat l m r t : List Char), matchPrefixCI pat l = some (m, r) →
      matchPrefixCI pat (l ++ t) = some (m, r ++ t)
  | [], l, m, r, t, h => by
    simp only [matchPrefixCI, Option.some.injEq, Prod.mk.injEq] at h ⊢
    exact ⟨h.1, by rw [← h.2]⟩
  | p :: ps, [], m, r, t, h => by
    simp [matchPrefixCI] at h
  | p :: ps, c :: cs, m, r, t, h => by
    unfold matchPrefixCI at h
    split at h
    · cases hrec : matchPrefixCI ps cs with
      | none => rw [hrec] at h; cases h
      | some mr =>
        obtain ⟨m', r'⟩ := mr
        rw [hrec] at h
        simp only [Option.some.injEq, Prod.mk.injEq] at h
        have ih := matchPrefixCI_append_right ps cs m' r' t hrec
        show matchPrefixCI (p :: ps) (c :: (cs ++ t)) = some (m, r ++ t)
        show (if c.toLower = p.toLower then
            match matchPrefixCI ps (cs ++ t) with
            | some (m, r) => some (c :: m, r)
            | none => none
          else none) = some (m, r ++ t)
        rw [if_pos (by assumption), ih]
        simp [← h.1, ← h.2]
    · cases h

theorem ciPre_of_matchPrefixCI :
    ∀ (pat l m r : List Char), matchPrefixCI pat l = some (m, r) →
      ciPre pat l = true
  | [], l, m, r, h => rfl
  | p :: ps, [], m, r, h => by
    simp [matchPrefixCI] at h
  | p :: ps, c :: cs, m, r, h => by
    unfold matchPrefixCI at h
    split at h
    · cases hrec : matchPrefixCI ps cs with
      | none => rw [hrec] at h; cases h
      | some mr =>
        obtain ⟨m', r'⟩ := mr
        have := ciPre_of_matchPrefixCI ps cs m' r' hrec
        simp [ciPre, this]
        assumption
    · cases h

theorem matchPrefixCI_none_of_ciPre :
    ∀ (pat l : List Char), ciPre pat l = false → matchPrefixCI pat l = none
  | [], l, h => by simp [ciPre] at h
  | p :: ps, [], h => rfl
  | p :: ps, c :: cs, h => by
    simp only [ciPre, Bool.and_eq_false_iff] at h
    unfold matchPrefixCI
    rcases h with h | h
    · rw [if_neg (by simpa using h)]
    · rw [matchPrefixCI_none_of_ciPre ps cs h]
      split <;> rfl

/-- Case-insensitive occurrences of a pattern whose non-head characters do
not lowercase to `'@'` cannot be created by appending a text whose head
lowercases to `'@'` (or nothing). -/
theorem ciPre_append_false :
    ∀ (pat s t : List Char), (∀ c ∈ pat, c.toLower ≠ '@') →
      (t = [] ∨ ∃ a t', t = a :: t' ∧ a.toLower = '@') →
      ciPre pat s = false → ciPre pat (s ++ t) = false
  | [], s, t, _, _, h => by simp [ciPre] at h
  | p :: ps, [], t, hpat, ht, h => by
    rcases ht with rfl | ⟨a, t', rfl, ha⟩
    · simpa using h
    · have hp : p.toLower ≠ '@' := hpat p (by simp)
      simp only [List.nil_append, ciPre, Bool.and_eq_false_iff]
      left
      simp only [decide_eq_false_iff_not]
      intro hcc
      rw [ha] at hcc
      exact hp hcc.symm
  | p :: ps, d :: s', t, hpat, ht, h => by
    simp only [ciPre, Bool.and_eq_false_iff] at h
    rcases h with h | h
    · simp only [List.cons_append, ciPre, Bool.and_eq_false_iff]
      left; exact h
    · simp only [List.cons_append, ciPre, Bool.and_eq_false_iff]
      right
      exact ciPre_append_false ps s' t
        (fun c hc => hpat c (List.mem_cons_of_mem p hc)) ht h

/-! ### Lemmas about takeWhile and dropWhile on appends -/

theorem takeWhile_dropWhile_append (p : Char → Bool) :
    ∀ (w t : List Char), (∀ c ∈ w, p c = true) →
      (∀ c, t.head? = some c → p c = false) →
      (w ++ t).takeWhile p = w ∧ (w ++ t).dropWhile p = t
  | [], t, _, ht => by
    cases t with
    | nil => exact ⟨rfl, rfl⟩
    | cons c t' =>
      have := ht c rfl
      simp [List.takeWhile_cons, List.dropWhile_cons, this]
  | c :: w', t, hw, ht => by
    have hc : p c = true := hw c (by simp)
    have ih := takeWhile_dropWhile_append p w' t
      (fun d hd => hw d (List.mem_cons_of_mem c hd)) ht
    simp [List.takeWhile_cons, List.dropWhile_cons, hc, ih.1, ih.2]

/-! ### Structure of a successful block match -/

theorem matchFontFaceAt_forward (m w body r : List Char)
    (hm : matchPrefixCI ffPat (m ++ (w ++ ('\x7b' :: (body ++ '\x7d' :: r))))
            = some (m, w ++ ('\x7b' :: (body ++ '\x7d' :: r))))
    (hw : ∀ c ∈ w, isPySpace c = true)
    (hb : ∀ c ∈ body, c ≠ '\x7d') :
    matchFontFaceAt (m ++ (w ++ ('\x7b' :: (body ++ '\x7d' :: r))))
      = some (m ++ w ++ '\x7b' :: (body ++ ['\x7d']), r) := by
  unfold matchFontFaceAt
  rw [hm]
  have h1 := takeWhile_dropWhile_append isPySpace w
    ('\x7b' :: (body ++ '\x7d' :: r)) hw
    (by intro c hc; simp only [List.head?_cons, Option.some.injEq] at hc
        subst hc; decide)
  have h2 := takeWhile_dropWhile_append (fun c => decide (c ≠ '\x7d')) body
    ('\x7d' :: r)
    (by intro c hc; simpa using hb c hc)
    (by intro c hc; simp only [List.head?_cons, Option.some.injEq] at hc
        subst hc; decide)
  simp only [h1.1, h1.2, h2.1, h2.2]

theorem matchFontFaceAt_inv (l blk rest : List Char)
    (h : matchFontFaceAt l = some (blk, rest)) :
    ∃ m w body, l = m ++ (w ++ ('\x7b' :: (body ++ '\x7d' :: rest)))
      ∧ blk = m ++ w ++ '\x7b' :: (body ++ ['\x7d'])
      ∧ matchPrefixCI ffPat l
          = some (m, w ++ ('\x7b' :: (body ++ '\x7d' :: rest)))
      ∧ m.length = ffPat.length
      ∧ (∀ c ∈ w, isPySpace c = true)
      ∧ (∀ c ∈ body, c ≠ '\x7d') := by
  unfold matchFontFaceAt at h
  cases hm : matchPrefixCI ffPat l with
  | none => rw [hm] at h; cases h
  | some mr =>
    obtain ⟨m, r1⟩ := mr
    rw [hm] at h
    simp only at h
    split at h
    case h_1 r3 heq =>
      split at h
      case h_1 r5 heq2 =>
        simp only [Option.some.injEq, Prod.mk.injEq] at h
        obtain ⟨hblk, hrest⟩ := h
        have e1 : r1 = r1.takeWhile isPySpace ++ ('\x7b' :: r3) := by
          conv_lhs => rw [← List.takeWhile_append_dropWhile (p := isPySpace) (l := r1)]
          rw [heq]
        have e2 : r3 = r3.takeWhile (fun c => decide (c ≠ '\x7d')) ++ ('\x7d' :: r5) := by
          conv_lhs =>
            rw [← List.takeWhile_append_dropWhile
              (p := fun c => decide (c ≠ '\x7d')) (l := r3)]
          rw [heq2]
        have hle : l = m ++ r1 := matchPrefixCI_eq_append ffPat l m r1 hm
        refine ⟨m, r1.takeWhile isPySpace, r3.takeWhile (fun c => decide (c ≠ '\x7d')),
          ?_, ?_, ?_, ?_, ?_, ?_⟩
        · rw [hle]
          conv_lhs => rw [e1]
          conv_lhs => rw [e2]
          simp [hrest]
        · rw [← hblk]
        · simp only [Option.some.injEq, Prod.mk.injEq, true_and]
          conv_lhs => rw [e1]
          conv_lhs => rw [e2]
          simp [hrest]
        · exact matchPrefixCI_length ffPat l m r1 hm
        · intro c hc; exact List.mem_takeWhile_imp hc
        · intro c hc
          have := List.mem_takeWhile_imp hc
          simpa using this
      case h_2 =>
        cases h
    case h_2 =>
      cases h

theorem matchFontFaceAt_rest_length (l blk rest : List Char)
    (h : matchFontFaceAt l = some (blk, rest)) : rest.length < l.length := by
  obtain ⟨m, w, body, hl, -, -, -, -, -⟩ := matchFontFaceAt_inv l blk rest h
  subst hl
  simp [List.length_append]
  omega

/-! ### Unfolding the block scanner -/

theorem scanAux_nil : ∀ (fuel : Nat), scanAux fuel [] = []
  | 0 => rfl
  | _ + 1 => rfl

theorem scanAux_eq_of_le :
    ∀ (f1 f2 : Nat) (l : List Char), l.length ≤ f1 → l.length ≤ f2 →
      scanAux f1 l = scanAux f2 l := by
  intro f1
  induction f1 with
  | zero =>
    intro f2 l h1 _
    have : l = [] := List.length_eq_zero.mp (Nat.le_zero.mp h1)
    subst this
    rw [scanAux_nil, scanAux_nil]
  | succ f1' ih =>
    intro f2 l h1 h2
    cases l with
    | nil => rw [scanAux_nil, scanAux_nil]
    | cons c rest =>
      cases f2 with
      | zero => simp at h2
      | succ f2' =>
        show (match matchFontFaceAt (c :: rest) with
          | some (blk, rest2) => blk :: scanAux f1' rest2
          | none => scanAux f1' rest)
          = (match matchFontFaceAt (c :: rest) with
          | some (blk, rest2) => blk :: scanAux f2' rest2
          | none => scanAux f2' rest)
        cases hm : matchFontFaceAt (c :: rest) with
        | none =>
          simp only
          have e1 : rest.length ≤ f1' := by
            simp only [List.length_cons] at h1; omega
          have e2 : rest.length ≤ f2' := by
            simp only [List.length_cons] at h2; omega
          exact ih f2' rest e1 e2
        | some br =>
          obtain ⟨blk, rest2⟩ := br
          simp only
          have hlt := matchFontFaceAt_rest_length (c :: rest) blk rest2 hm
          have e1 : rest2.length ≤ f1' := by
            simp only [List.length_cons] at hlt h1
            omega
          have e2 : rest2.length ≤ f2' := by
            simp only [List.length_cons] at hlt h2
            omega
          rw [ih f2' rest2 e1 e2]

theorem get_font_face_blocks_cons_some (c : Char) (rest blk r2 : List Char)
    (h : matchFontFaceAt (c :: rest) = some (blk, r2)) :
    get_font_face_blocks (c :: rest) = blk :: get_font_face_blocks r2 := by
  show scanAux (rest.length + 1) (c :: rest) = _
  have hlt := matchFontFaceAt_rest_length (c :: rest) blk r2 h
  simp only [List.length_cons] at hlt
  show (match matchFontFaceAt (c :: rest) with
    | some (blk, rest2) => blk :: scanAux rest.length rest2
    | none => scanAux rest.length rest) = _
  rw [h]
  simp only [List.cons.injEq, true_and]
  exact scanAux_eq_of_le rest.length r2.length r2 (by omega) (Nat.le_refl _)

theorem get_font_face_blocks_cons_none (c : Char) (rest : List Char)
    (h : matchFontFaceAt (c :: rest) = none) :
    get_font_face_blocks (c :: rest) = get_font_face_blocks rest := by
  show scanAux (rest.length + 1) (c :: rest) = _
  show (match matchFontFaceAt (c :: rest) with
    | some (blk, rest2) => blk :: scanAux rest.length rest2
    | none => scanAux rest.length rest) = _
  rw [h]
  rfl

/-! ### The scanner on decomposed texts -/

theorem isBlockChars_struct (b : List Char) (hb : isBlockChars b = true) :
    matchFontFaceAt b = some (b, []) := by
  unfold isBlockChars at hb
  cases hm : matchFontFaceAt b with
  | none => rw [hm] at hb; cases hb
  | some br =>
    obtain ⟨blk, rest⟩ := br
    rw [hm] at hb
    simp only [List.isEmpty_iff] at hb
    subst hb
    obtain ⟨m, w, body, hl, hblk, -, -, -, -⟩ :=
      matchFontFaceAt_inv b blk [] hm
    have hbe : blk = b := by
      rw [hblk, hl]
      simp
    rw [hbe]

theorem block_head_at (b : List Char) (hb : isBlockChars b = true) :
    ∃ c b', b = c :: b' ∧ c.toLower = '@' := by
  have hm := isBlockChars_struct b hb
  obtain ⟨m, w, body, hl, -, hmp, -, -, -⟩ := matchFontFaceAt_inv b b [] hm
  have hci := ciPre_of_matchPrefixCI ffPat b m _ hmp
  have hff : ffPat = '@' :: "font-face".toList := rfl
  cases b with
  | nil => rw [hff] at hci; simp [ciPre] at hci
  | cons c b' =>
    refine ⟨c, b', rfl, ?_⟩
    rw [hff] at hci
    simp only [ciPre, Bool.and_eq_true, decide_eq_true_eq] at hci
    simpa using hci.1

theorem scan_append_block (b t : List Char) (hb : isBlockChars b = true) :
    get_font_face_blocks (b ++ t) = b :: get_font_face_blocks t := by
  have hm := isBlockChars_struct b hb
  obtain ⟨m, w, body, hl, hblk, hmp, hlen, hw, hbody⟩ :=
    matchFontFaceAt_inv b b [] hm
  have hmp2 : matchPrefixCI ffPat (b ++ t)
      = some (m, (w ++ ('\x7b' :: (body ++ '\x7d' :: []))) ++ t) :=
    matchPrefixCI_append_right ffPat b m _ t hmp
  have hshape : b ++ t = m ++ (w ++ ('\x7b' :: (body ++ '\x7d' :: t))) := by
    conv_lhs => rw [hl]
    simp
  have hmp3 : matchPrefixCI ffPat (m ++ (w ++ ('\x7b' :: (body ++ '\x7d' :: t))))
      = some (m, w ++ ('\x7b' :: (body ++ '\x7d' :: t))) := by
    rw [← hshape, hmp2]
    congr 2
    simp
  have hfwd := matchFontFaceAt_forward m w body t hmp3 hw hbody
  rw [← hshape] at hfwd
  have hblk2 : m ++ w ++ '\x7b' :: (body ++ ['\x7d']) = b := by
    rw [hblk]
  rw [hblk2] at hfwd
  obtain ⟨c, b', hbe, -⟩ := block_head_at b hb
  have : b ++ t = c :: (b' ++ t) := by rw [hbe]; rfl
  rw [this] at hfwd ⊢
  rw [get_font_face_blocks_cons_some c (b' ++ t) b t hfwd]

theorem scan_skip (s t : List Char) (hs : hasFFCI s = false)
    (ht : t = [] ∨ ∃ a t', t = a :: t' ∧ a.toLower = '@') :
    get_font_face_blocks (s ++ t) = get_font_face_blocks t := by
  induction s with
  | nil => simp
  | cons c s' ih =>
    have h1 : ciPre ffPat (c :: s') = false ∧ hasFFCI s' = false := by
      have : hasFFCI (c :: s') = (ciPre ffPat (c :: s') || hasFFCI s') := rfl
      rw [this] at hs
      exact Bool.or_eq_false_iff.mp hs
    have hff : ffPat = '@' :: "font-face".toList := rfl
    have h2 : ciPre ffPat ((c :: s') ++ t) = false := by
      have hc := h1.1
      rw [hff] at hc ⊢
      simp only [List.cons_append, ciPre, Bool.and_eq_false_iff] at hc ⊢
      rcases hc with hc | hc
      · exact Or.inl hc
      · exact Or.inr (ciPre_append_false "font-face".toList s' t (by decide) ht hc)
    have h3 : matchFontFaceAt (c :: (s' ++ t)) = none := by
      unfold matchFontFaceAt
      rw [matchPrefixCI_none_of_ciPre ffPat (c :: (s' ++ t)) (by simpa using h2)]
    have : (c :: s') ++ t = c :: (s' ++ t) := rfl
    rw [this, get_font_face_blocks_cons_none c (s' ++ t) h3]
    exact ih h1.2

theorem scan_zero_occurrences (s : List Char) (hs : hasFFCI s = false) :
    get_font_face_blocks s = [] := by
  have := scan_skip s [] hs (Or.inl rfl)
  simpa using this

theorem scan_interleave :
    ∀ (pairs : List (List Char × List Char)) (tailSeg : List Char),
      (∀ p ∈ pairs, hasFFCI p.1 = false ∧ isBlockChars p.2 = true) →
      hasFFCI tailSeg = false →
      get_font_face_blocks (interleaveF pairs tailSeg) = pairs.map Prod.snd
  | [], tailSeg, _, ht => scan_zero_occurrences tailSeg ht
  | (s, b) :: rest, tailSeg, hp, ht => by
    have hsb := hp (s, b) (by simp)
    obtain ⟨c, b', hbe, hcl⟩ := block_head_at b hsb.2
    have e : interleaveF ((s, b) :: rest) tailSeg
        = s ++ (b ++ interleaveF rest tailSeg) := by
      simp [interleaveF]
    rw [e, scan_skip s (b ++ interleaveF rest tailSeg) hsb.1
      (Or.inr ⟨c, b' ++ interleaveF rest tailSeg, by rw [hbe]; rfl, hcl⟩)]
    rw [scan_append_block b (interleaveF rest tailSeg) hsb.2]
    rw [scan_interleave rest tailSeg
      (fun p hp' => hp p (List.mem_cons_of_mem _ hp')) ht]
    rfl

/-! ### Lemmas about Python replace and the marker rewriter -/

theorem replaceAllAux_nil (pat : List Char) :
    ∀ fuel, replaceAllAux pat fuel [] = []
  | 0 => rfl
  | fuel + 1 => by cases pat <;> rfl

theorem isPrefixOf_length_le (pat l : List Char)
    (h : pat.isPrefixOf l = true) : pat.length ≤ l.length :=
  ( List.isPrefixOf_iff_prefix.mp h).length_le

theorem replaceAllAux_eq_of_le (pat : List Char) :
    ∀ (f1 f2 : Nat) (l : List Char), l.length ≤ f1 → l.length ≤ f2 →
      replaceAllAux pat f1 l = replaceAllAux pat f2 l := by
  intro f1
  induction f1 with
  | zero =>
    intro f2 l h1 _
    have : l = [] := List.length_eq_zero.mp (Nat.le_zero.mp h1)
    subst this
    rw [replaceAllAux_nil, replaceAllAux_nil]
  | succ f1' ih =>
    intro f2 l h1 h2
    cases l with
    | nil => rw [replaceAllAux_nil, replaceAllAux_nil]
    | cons c rest =>
      cases f2 with
      | zero => simp at h2
      | succ f2' =>
        show (if !pat.isEmpty && pat.isPrefixOf (c :: rest) then
            replaceAllAux pat f1' ((c :: rest).drop pat.length)
          else c :: replaceAllAux pat f1' rest)
          = (if !pat.isEmpty && pat.isPrefixOf (c :: rest) then
            replaceAllAux pat f2' ((c :: rest).drop pat.length)
          else c :: replaceAllAux pat f2' rest)
        by_cases hc : (!pat.isEmpty && pat.isPrefixOf (c :: rest)) = true
        · rw [if_pos hc, if_pos hc]
          have hne : pat ≠ [] := by
            intro he
            subst he
            simp at hc
          have hplen : 1 ≤ pat.length := by
            cases pat with
            | nil => exact absurd rfl hne
            | cons a as => simp
          have hle := isPrefixOf_length_le pat (c :: rest)
            (Bool.and_eq_true_iff.mp hc).2
          have e1 : ((c :: rest).drop pat.length).length ≤ f1' := by
            simp only [List.length_drop, List.length_cons] at hle ⊢
            simp only [List.length_cons] at h1
            omega
          have e2 : ((c :: rest).drop pat.length).length ≤ f2' := by
            simp only [List.length_drop, List.length_cons] at hle ⊢
            simp only [List.length_cons] at h2
            omega
          exact ih f2' _ e1 e2
        · rw [if_neg hc, if_neg hc]
          have e1 : rest.length ≤ f1' := by
            simp only [List.length_cons] at h1; omega
          have e2 : rest.length ≤ f2' := by
            simp only [List.length_cons] at h2; omega
          rw [ih f2' rest e1 e2]

theorem replaceAll_nil (pat : List Char) : replaceAll pat [] = [] := rfl

theorem replaceAll_pos (pat l : List Char) (hne : pat ≠ [])
    (hp : pat.isPrefixOf l = true) :
    replaceAll pat l = replaceAll pat (l.drop pat.length) := by
  cases l with
  | nil =>
    cases pat with
    | nil => exact absurd rfl hne
    | cons a as => simp [List.isPrefixOf] at hp
  | cons c rest =>
    show replaceAllAux pat (rest.length + 1) (c :: rest) = _
    have hcond : (!pat.isEmpty && pat.isPrefixOf (c :: rest)) = true := by
      rw [hp]
      cases pat with
      | nil => exact absurd rfl hne
      | cons a as => rfl
    show (if !pat.isEmpty && pat.isPrefixOf (c :: rest) then
        replaceAllAux pat rest.length ((c :: rest).drop pat.length)
      else c :: replaceAllAux pat rest.length rest) = _
    rw [if_pos hcond]
    have hplen : 1 ≤ pat.length := by
      cases pat with
      | nil => exact absurd rfl hne
      | cons a as => simp
    apply replaceAllAux_eq_of_le
    · have hle := isPrefixOf_length_le pat (c :: rest) hp
      simp only [List.length_drop, List.length_cons] at hle ⊢
      omega
    · exact Nat.le_refl _

theorem replaceAll_neg (pat : List Char) (c : Char) (rest : List Char)
    (h : (!pat.isEmpty && pat.isPrefixOf (c :: rest)) = false) :
    replaceAll pat (c :: rest) = c :: replaceAll pat rest := by
  show replaceAllAux pat (rest.length + 1) (c :: rest) = _
  show (if !pat.isEmpty && pat.isPrefixOf (c :: rest) then
      replaceAllAux pat rest.length ((c :: rest).drop pat.length)
    else c :: replaceAllAux pat rest.length rest) = _
  rw [h]
  simp only [if_neg Bool.false_ne_true, List.cons.injEq, true_and]
  rfl

theorem replaceAll_cons_match (pat t : List Char) (hne : pat ≠ []) :
    replaceAll pat (pat ++ t) = replaceAll pat t := by
  have hp : pat.isPrefixOf (pat ++ t) = true :=
    List.isPrefixOf_iff_prefix.mpr (List.prefix_append pat t)
  rw [replaceAll_pos pat (pat ++ t) hne hp, List.drop_left]

theorem replaceAll_append_of_no_occurrence (pat : List Char) :
    ∀ (u t : List Char),
      (∀ v, v <:+ u → v ≠ [] → pat.isPrefixOf (v ++ t) = false) →
      replaceAll pat (u ++ t) = u ++ replaceAll pat t
  | [], t, _ => by simp
  | c :: u', t, h => by
    have h0 : pat.isPrefixOf ((c :: u') ++ t) = false :=
      h (c :: u') (List.suffix_refl _) (by simp)
    have hcond : (!pat.isEmpty && pat.isPrefixOf (c :: (u' ++ t))) = false := by
      rw [show c :: (u' ++ t) = (c :: u') ++ t from rfl, h0, Bool.and_false]
    rw [List.cons_append, replaceAll_neg pat c (u' ++ t) hcond,
      replaceAll_append_of_no_occurrence pat u' t
        (fun v hv hne => h v (hv.trans (List.suffix_cons c u')) hne)]
    rfl

theorem removeMarkerAux_nil : ∀ fuel, removeMarkerAux fuel [] = []
  | 0 => rfl
  | _ + 1 => rfl

theorem markerL_ne_nil : markerL ≠ [] := by decide

theorem removeMarkerAux_eq_of_le :
    ∀ (f1 f2 : Nat) (l : List Char), l.length ≤ f1 → l.length ≤ f2 →
      removeMarkerAux f1 l = removeMarkerAux f2 l := by
  intro f1
  induction f1 with
  | zero =>
    intro f2 l h1 _
    have : l = [] := List.length_eq_zero.mp (Nat.le_zero.mp h1)
    subst this
    rw [removeMarkerAux_nil, removeMarkerAux_nil]
  | succ f1' ih =>
    intro f2 l h1 h2
    cases l with
    | nil => rw [removeMarkerAux_nil, removeMarkerAux_nil]
    | cons c rest =>
      cases f2 with
      | zero => simp at h2
      | succ f2' =>
        show (if markerL.isPrefixOf (c :: rest) then
            removeMarkerAux f1' (((c :: rest).drop markerL.length).dropWhile isPySpace)
          else c :: removeMarkerAux f1' rest)
          = (if markerL.isPrefixOf (c :: rest) then
            removeMarkerAux f2' (((c :: rest).drop markerL.length).dropWhile isPySpace)
          else c :: removeMarkerAux f2' rest)
        by_cases hc : markerL.isPrefixOf (c :: rest) = true
        · rw [if_pos hc, if_pos hc]
          have hle := isPrefixOf_length_le markerL (c :: rest) hc
          have hplen : 1 ≤ markerL.length := by decide
          have hdw : (((c :: rest).drop markerL.length).dropWhile isPySpace).length
              ≤ ((c :: rest).drop markerL.length).length :=
            (List.dropWhile_suffix isPySpace).length_le
          have e1 : (((c :: rest).drop markerL.length).dropWhile isPySpace).length ≤ f1' := by
            simp only [List.length_drop, List.length_cons] at hle hdw ⊢
            simp only [List.length_cons] at h1
            omega
          have e2 : (((c :: rest).drop markerL.length).dropWhile isPySpace).length ≤ f2' := by
            simp only [List.length_drop, List.length_cons] at hle hdw ⊢
            simp only [List.length_cons] at h2
            omega
          exact ih f2' _ e1 e2
        · rw [if_neg hc, if_neg hc]
          have e1 : rest.length ≤ f1' := by
            simp only [List.length_cons] at h1; omega
          have e2 : rest.length ≤ f2' := by
            simp only [List.length_cons] at h2; omega
          rw [ih f2' rest e1 e2]

theorem removeMarker_nil : removeMarker [] = [] := rfl

theorem removeMarker_pos (l : List Char) (hp : markerL.isPrefixOf l = true) :
    removeMarker l = removeMarker ((l.drop markerL.length).dropWhile isPySpace) := by
  cases l with
  | nil => simp [markerL] at hp
  | cons c rest =>
    show removeMarkerAux (rest.length + 1) (c :: rest) = _
    show (if markerL.isPrefixOf (c :: rest) then
        removeMarkerAux rest.length (((c :: rest).drop markerL.length).dropWhile isPySpace)
      else c :: removeMarkerAux rest.length rest) = _
    rw [if_pos hp]
    apply removeMarkerAux_eq_of_le
    · have hle := isPrefixOf_length_le markerL (c :: rest) hp
      have hplen : 1 ≤ markerL.length := by decide
      have hdw : (((c :: rest).drop markerL.length).dropWhile isPySpace).length
          ≤ ((c :: rest).drop markerL.length).length :=
        (List.dropWhile_suffix isPySpace).length_le
      simp only [List.length_drop, List.length_cons] at hle hdw ⊢
      omega
    · exact Nat.le_refl _

theorem removeMarker_neg (c : Char) (rest : List Char)
    (h : markerL.isPrefixOf (c :: rest) = false) :
    removeMarker (c :: rest) = c :: removeMarker rest := by
  show removeMarkerAux (rest.length + 1) (c :: rest) = _
  show (if markerL.isPrefixOf (c :: rest) then
      removeMarkerAux rest.length (((c :: rest).drop markerL.length).dropWhile isPySpace)
    else c :: removeMarkerAux rest.length rest) = _
  rw [h]
  simp only [if_neg Bool.false_ne_true, List.cons.injEq, true_and]
  rfl

theorem removeMarker_append_of_no_occurrence :
    ∀ (u t : List Char),
      (∀ v, v <:+ u → v ≠ [] → markerL.isPrefixOf (v ++ t) = false) →
      removeMarker (u ++ t) = u ++ removeMarker t
  | [], t, _ => by simp
  | c :: u', t, h => by
    have h0 : markerL.isPrefixOf ((c :: u') ++ t) = false :=
      h (c :: u') (List.suffix_refl _) (by simp)
    rw [List.cons_append,
      removeMarker_neg c (u' ++ t) (by simpa using h0),
      removeMarker_append_of_no_occurrence u' t
        (fun v hv hne => h v (hv.trans (List.suffix_cons c u')) hne)]
    rfl

/-! ### Substring occurrence lemmas -/

theorem containsSub_of_suffix (pat u v : List Char) (hv : v <:+ u)
    (hp : pat.isPrefixOf v = true) : containsSub pat u = true := by
  induction u with
  | nil =>
    have : v = [] := List.suffix_nil.mp hv
    subst this
    cases pat with
    | nil => rfl
    | cons a as => simp [List.isPrefixOf] at hp
  | cons c u' ih =>
    rcases List.suffix_cons_iff.mp hv with rfl | hv'
    · show (pat.isPrefixOf (c :: u') || containsSub pat u') = true
      rw [hp]
      rfl
    · show (pat.isPrefixOf (c :: u') || containsSub pat u') = true
      rw [ih hv']
      simp

theorem no_isPrefixOf_of_containsSub_eq_false (pat u : List Char)
    (h : containsSub pat u = false) :
    ∀ v, v <:+ u → v ≠ [] → pat.isPrefixOf v = false := by
  intro v hv _
  cases hp : pat.isPrefixOf v with
  | false => rfl
  | true => rw [containsSub_of_suffix pat u v hv hp] at h; cases h

theorem removeMarker_id (u : List Char) (h : containsSub markerL u = false) :
    removeMarker u = u := by
  have := removeMarker_append_of_no_occurrence u []
    (by
      intro v hv hne
      have := no_isPrefixOf_of_containsSub_eq_false markerL u h v hv hne
      simpa using this)
  rw [List.append_nil] at this
  rw [this, removeMarker_nil, List.append_nil]

theorem isPrefixOf_append_split :
    ∀ (pat s t : List Char), pat.isPrefixOf (s ++ t) = true →
      pat.isPrefixOf s = true ∨ ∃ p2, pat = s ++ p2 ∧ p2.isPrefixOf t = true
  | [], s, t, _ => Or.inl (by cases s <;> rfl)
  | p :: ps, [], t, h => Or.inr ⟨p :: ps, rfl, by simpa using h⟩
  | p :: ps, c :: s', t, h => by
    simp only [List.cons_append, List.isPrefixOf, Bool.and_eq_true] at h
    rcases isPrefixOf_append_split ps s' t h.2 with h' | ⟨p2, hp2, hpt⟩
    · left
      simp only [List.isPrefixOf, Bool.and_eq_true]
      exact ⟨h.1, h'⟩
    · right
      refine ⟨p2, ?_, hpt⟩
      have hpc : p = c := by simpa using h.1
      rw [hp2, hpc]
      rfl

theorem suffix_head_mem_tail (v b : List Char) (c : Char) (v' : List Char)
    (hv : v <:+ b) (hvne : v = c :: v') (hne : v ≠ b) : c ∈ b.tail := by
  obtain ⟨u, hu⟩ := hv
  cases u with
  | nil => exact absurd (by simpa using hu) hne
  | cons d u' =>
    subst hvne
    have : b.tail = u' ++ c :: v' := by
      rw [← hu]
      rfl
    rw [this]
    exact List.mem_append_right u' (List.mem_cons_self c v')

theorem suffix_ne_nil_last_mem (v u : List Char) (x : Char)
    (hv : v <:+ u ++ [x]) (hne : v ≠ []) : x ∈ v := by
  obtain ⟨w, hw⟩ := hv
  have hne2 : w ++ v ≠ [] := by simp [hne]
  have h1 : (w ++ v).getLast hne2 = x := by
    have : (w ++ v).getLast hne2 = (u ++ [x]).getLast (by simp) := by
      congr 1
    rw [this, List.getLast_concat]
  have h2 : (w ++ v).getLast hne2 = v.getLast hne := by
    rw [List.getLast_append]
    simp [hne]
  rw [h2] at h1
  rw [← h1]
  exact List.getLast_mem hne

/-! ### Shape of block texts -/

theorem matchPrefixCI_chars :
    ∀ (pat l m r : List Char), matchPrefixCI pat l = some (m, r) →
      ∀ c ∈ m, ∃ p ∈ pat, c.toLower = p.toLower
  | [], l, m, r, h => by
    simp only [matchPrefixCI, Option.some.injEq, Prod.mk.injEq] at h
    intro c hc
    rw [← h.1] at hc
    cases hc
  | p :: ps, [], m, r, h => by
    simp [matchPrefixCI] at h
  | p :: ps, c :: cs, m, r, h => by
    unfold matchPrefixCI at h
    split at h
    · cases hrec : matchPrefixCI ps cs with
      | none => rw [hrec] at h; cases h
      | some mr =>
        obtain ⟨m', r'⟩ := mr
        rw [hrec] at h
        simp only [Option.some.injEq, Prod.mk.injEq] at h
        intro d hd
        rw [← h.1] at hd
        rcases List.mem_cons.mp hd with rfl | hd'
        · exact ⟨p, by simp, by assumption⟩
        · obtain ⟨q, hq, hdq⟩ := matchPrefixCI_chars ps cs m' r' hrec d hd'
          exact ⟨q, List.mem_cons_of_mem p hq, hdq⟩
    · cases h

theorem block_split_brace (b : List Char) (hb : isBlockChars b = true) :
    ∃ b', b = b' ++ ['\x7d'] ∧ '\x7d' ∉ b' := by
  have hm := isBlockChars_struct b hb
  obtain ⟨m, w, body, hl, hblk, hmp, hlen, hw, hbody⟩ :=
    matchFontFaceAt_inv b b [] hm
  refine ⟨m ++ w ++ '\x7b' :: body, ?_, ?_⟩
  · rw [hl]
    simp
  · intro hmem
    have hffl : ∀ p ∈ ffPat, p.toLower ≠ '\x7d' := by decide
    rcases List.mem_append.mp hmem with hm2 | hbody2
    · rcases List.mem_append.mp hm2 with hmm | hww
      · obtain ⟨p, hp, he⟩ := matchPrefixCI_chars ffPat b m _ hmp '\x7d' hmm
        exact hffl p hp (by simpa using he.symm)
      · have := hw '\x7d' hww
        simp [isPySpace] at this
    · rcases List.mem_cons.mp hbody2 with he | hbd
      · cases he
      · exact hbody '\x7d' hbd rfl

theorem braceForm_eq :
    ∀ (x' y' r : List Char), '\x7d' ∉ x' → '\x7d' ∉ y' →
      (x' ++ ['\x7d']).isPrefixOf (y' ++ '\x7d' :: r) = true → x' = y'
  | [], [], r, _, _, _ => rfl
  | [], d :: y'', r, _, hy, h => by
    simp only [List.nil_append, List.cons_append, List.isPrefixOf,
      Bool.and_eq_true, beq_iff_eq] at h
    exact absurd (h.1 ▸ List.mem_cons_self d y'') hy
  | a :: x'', [], r, hx, _, h => by
    simp only [List.cons_append, List.nil_append, List.isPrefixOf,
      Bool.and_eq_true, beq_iff_eq] at h
    exact absurd (h.1 ▸ List.mem_cons_self a x'') hx
  | a :: x'', d :: y'', r, hx, hy, h => by
    simp only [List.cons_append, List.isPrefixOf, Bool.and_eq_true,
      beq_iff_eq] at h
    have hrec := braceForm_eq x'' y'' r
      (fun hm => hx (List.mem_cons_of_mem a hm))
      (fun hm => hy (List.mem_cons_of_mem d hm)) h.2
    rw [h.1, hrec]

theorem block_isPrefixOf_eq (x y r : List Char) (hx : isBlockChars x = true)
    (hy : isBlockChars y = true) (h : x.isPrefixOf (y ++ r) = true) : x = y := by
  obtain ⟨x', hx', hxm⟩ := block_split_brace x hx
  obtain ⟨y', hy', hym⟩ := block_split_brace y hy
  rw [hx', hy']
  have h2 : (x' ++ ['\x7d']).isPrefixOf (y' ++ '\x7d' :: r) = true := by
    rw [hx', hy'] at h
    simpa [List.append_assoc] using h
  rw [braceForm_eq x' y' r hxm hym h2]

theorem isPrefixOf_false_of_head_ne (x : List Char) (cx : Char)
    (x' : List Char) (hx : x = cx :: x') (c : Char) (t : List Char)
    (hne : cx ≠ c) : x.isPrefixOf (c :: t) = false := by
  subst hx
  simp only [List.isPrefixOf, Bool.and_eq_false_iff]
  left
  simpa using hne

theorem BlockNice_ne_nil (b : List Char) (hb : BlockNice b) : b ≠ [] := by
  obtain ⟨c, b', he, -⟩ := block_head_at b hb.1
  rw [he]
  simp

/-! ### Erasing every block from a stream -/

theorem removeBlockS_cons_inl (x s : List Char)
    (rest : List (List Char ⊕ List Char)) :
    removeBlockS x (Sum.inl s :: rest) = Sum.inl s :: removeBlockS x rest := by
  simp [removeBlockS, List.filter_cons]

theorem removeBlockS_cons_inr_eq (x : List Char)
    (rest : List (List Char ⊕ List Char)) :
    removeBlockS x (Sum.inr x :: rest) = removeBlockS x rest := by
  simp [removeBlockS, List.filter_cons]

theorem removeBlockS_cons_inr_ne (x b : List Char)
    (rest : List (List Char ⊕ List Char)) (h : b ≠ x) :
    removeBlockS x (Sum.inr b :: rest) = Sum.inr b :: removeBlockS x rest := by
  simp [removeBlockS, List.filter_cons, h]

theorem replaceAll_flattenS (x : List Char) (hx : BlockNice x) :
    ∀ str, streamOK str →
      replaceAll x (flattenS str) = flattenS (removeBlockS x str)
  | [], _ => by
    show replaceAll x [] = flattenS (removeBlockS x [])
    rw [replaceAll_nil]
    rfl
  | Sum.inl s :: rest, hok => by
    have hs : SegClean s := by
      have := hok (Sum.inl s) (by simp)
      simpa using this
    obtain ⟨cx, x', hxe, hcx⟩ := block_head_at x hx.1
    have hskip : ∀ v, v <:+ s → v ≠ [] →
        x.isPrefixOf (v ++ flattenS rest) = false := by
      intro v hv hne
      cases v with
      | nil => exact absurd rfl hne
      | cons c v' =>
        have hc : c ∈ s := hv.subset (List.mem_cons_self c v')
        have hne2 : cx ≠ c := by
          intro he
          exact hs c hc (he ▸ hcx)
        exact isPrefixOf_false_of_head_ne x cx x' hxe c _ hne2
    show replaceAll x (s ++ flattenS rest) = _
    rw [replaceAll_append_of_no_occurrence x s (flattenS rest) hskip,
      replaceAll_flattenS x hx rest
        (fun it hit => hok it (List.mem_cons_of_mem _ hit)),
      removeBlockS_cons_inl]
    rfl
  | Sum.inr b :: rest, hok => by
    have hbn : BlockNice b := by
      have := hok (Sum.inr b) (by simp)
      simpa using this
    by_cases hbe : b = x
    · subst hbe
      show replaceAll b (b ++ flattenS rest) = _
      rw [replaceAll_cons_match b (flattenS rest) (BlockNice_ne_nil b hbn),
        replaceAll_flattenS b hx rest
          (fun it hit => hok it (List.mem_cons_of_mem _ hit)),
        removeBlockS_cons_inr_eq]
    · have hskip : ∀ v, v <:+ b → v ≠ [] →
          x.isPrefixOf (v ++ flattenS rest) = false := by
        intro v hv hne
        by_cases hvb : v = b
        · subst hvb
          cases hp : x.isPrefixOf (v ++ flattenS rest) with
          | false => rfl
          | true =>
            exact absurd (block_isPrefixOf_eq x v (flattenS rest)
              hx.1 hbn.1 hp).symm hbe
        · cases v with
          | nil => exact absurd rfl hne
          | cons c v' =>
            have hc : c ∈ b.tail := suffix_head_mem_tail (c :: v') b c v' hv rfl hvb
            have hcl : c.toLower ≠ '@' := hbn.2.1 c hc
            obtain ⟨cx, x', hxe, hcx⟩ := block_head_at x hx.1
            exact isPrefixOf_false_of_head_ne x cx x' hxe c _
              (fun he => hcl (he ▸ hcx))
      show replaceAll x (b ++ flattenS rest) = _
      rw [replaceAll_append_of_no_occurrence x b (flattenS rest) hskip,
        replaceAll_flattenS x hx rest
          (fun it hit => hok it (List.mem_cons_of_mem _ hit)),
        removeBlockS_cons_inr_ne x b rest hbe]
      rfl

theorem streamOK_removeBlockS (x : List Char)
    (str : List (List Char ⊕ List Char)) (h : streamOK str) :
    streamOK (removeBlockS x str) :=
  fun it hit => h it (List.mem_of_mem_filter hit)

theorem foldl_replaceAll_flattenS :
    ∀ (B : List (List Char)) (str), (∀ b ∈ B, BlockNice b) → streamOK str →
      B.foldl (fun acc b => replaceAll b acc) (flattenS str)
        = flattenS (B.foldl (fun st x => removeBlockS x st) str)
  | [], str, _, _ => rfl
  | b :: B', str, hB, hok => by
    show B'.foldl _ (replaceAll b (flattenS str)) = _
    rw [replaceAll_flattenS b (hB b (by simp)) str hok]
    exact foldl_replaceAll_flattenS B' (removeBlockS b str)
      (fun b' hb' => hB b' (List.mem_cons_of_mem _ hb'))
      (streamOK_removeBlockS b str hok)

theorem filter_isLeft_removeBlockS (b : List Char) :
    ∀ str, (removeBlockS b str).filter (fun it => it.isLeft)
      = str.filter (fun it => it.isLeft)
  | [] => rfl
  | Sum.inl s :: rest => by
    rw [removeBlockS_cons_inl]
    simp [List.filter_cons, filter_isLeft_removeBlockS b rest]
  | Sum.inr b' :: rest => by
    by_cases hbe : b' = b
    · rw [hbe, removeBlockS_cons_inr_eq]
      simp [List.filter_cons, filter_isLeft_removeBlockS b rest]
    · rw [removeBlockS_cons_inr_ne b b' rest hbe]
      simp [List.filter_cons, filter_isLeft_removeBlockS b rest]

theorem foldl_removeBlockS_segments :
    ∀ (B : List (List Char)) (str),
      (∀ b, Sum.inr b ∈ str → b ∈ B) →
      B.foldl (fun st x => removeBlockS x st) str
        = str.filter (fun it => it.isLeft)
  | [], str, h => by
    show str = _
    symm
    rw [List.filter_eq_self]
    intro it hit
    cases it with
    | inl s => rfl
    | inr b => exact absurd (h b hit) (by simp)
  | b :: B', str, h => by
    show B'.foldl _ (removeBlockS b str) = _
    rw [foldl_removeBlockS_segments B' (removeBlockS b str)
      (by
        intro b' hb'
        have h2 := List.mem_filter.mp hb'
        have h3 : b' ≠ b := by
          intro he
          subst he
          simpa using h2.2
        rcases List.mem_cons.mp (h b' h2.1) with he | hm
        · exact absurd he h3
        · exact hm)]
    exact filter_isLeft_removeBlockS b str

theorem flattenS_toStream :
    ∀ (pairs : List (List Char × List Char)) (tailSeg : List Char),
      flattenS (toStream pairs tailSeg) = interleaveF pairs tailSeg
  | [], t => by simp [toStream, flattenS, interleaveF]
  | (s, b) :: rest, t => by
    simp [toStream, flattenS, interleaveF, flattenS_toStream rest t]

theorem flattenS_filter_isLeft :
    ∀ (pairs : List (List Char × List Char)) (tailSeg : List Char),
      flattenS ((toStream pairs tailSeg).filter (fun it => it.isLeft))
        = segsConcat pairs tailSeg
  | [], t => by simp [toStream, List.filter_cons, flattenS, segsConcat]
  | (s, b) :: rest, t => by
    simp only [toStream, List.filter_cons]
    simp [flattenS, segsConcat, flattenS_filter_isLeft rest t]

theorem toStream_inr_mem :
    ∀ (pairs : List (List Char × List Char)) (tailSeg : List Char) (b : List Char),
      Sum.inr b ∈ toStream pairs tailSeg → b ∈ pairs.map Prod.snd
  | [], t, b, h => by simp [toStream] at h
  | (s, b') :: rest, t, b, h => by
    simp only [toStream, List.mem_cons] at h
    rcases h with h | h | h
    · cases h
    · simp only [Sum.inr.injEq] at h
      subst h
      simp
    · have := toStream_inr_mem rest t b h
      simp only [List.map_cons]
      exact List.mem_cons_of_mem _ this

theorem streamOK_toStream :
    ∀ (pairs : List (List Char × List Char)) (tailSeg : List Char),
      (∀ p ∈ pairs, SegClean p.1) → (∀ p ∈ pairs, BlockNice p.2) →
      SegClean tailSeg → streamOK (toStream pairs tailSeg)
  | [], t, _, _, ht => by
    intro it hit
    simp only [toStream, List.mem_singleton] at hit
    subst hit
    exact ht
  | (s, b) :: rest, t, hseg, hb, ht => by
    intro it hit
    simp only [toStream, List.mem_cons] at hit
    rcases hit with rfl | rfl | hit
    · exact hseg (s, b) (by simp)
    · exact hb (s, b) (by simp)
    · exact streamOK_toStream rest t
        (fun p hp => hseg p (List.mem_cons_of_mem _ hp))
        (fun p hp => hb p (List.mem_cons_of_mem _ hp)) ht it hit

/-- Erasing every extracted block from a decomposed stylesheet leaves
exactly the concatenation of its segments. -/
theorem fold_replace_interleave (pairs : List (List Char × List Char))
    (tailSeg : List Char)
    (hseg : ∀ p ∈ pairs, SegClean p.1) (hb : ∀ p ∈ pairs, BlockNice p.2)
    (ht : SegClean tailSeg) :
    (pairs.map Prod.snd).foldl (fun acc b => replaceAll b acc)
        (interleaveF pairs tailSeg)
      = segsConcat pairs tailSeg := by
  rw [← flattenS_toStream pairs tailSeg,
    foldl_replaceAll_flattenS (pairs.map Prod.snd) (toStream pairs tailSeg)
      (by
        intro b hbm
        obtain ⟨p, hp, he⟩ := List.mem_map.mp hbm
        exact he ▸ hb p hp)
      (streamOK_toStream pairs tailSeg hseg hb ht),
    foldl_removeBlockS_segments (pairs.map Prod.snd) (toStream pairs tailSeg)
      (toStream_inr_mem pairs tailSeg)]
  exact flattenS_filter_isLeft pairs tailSeg

theorem hasFFCI_of_SegClean :
    ∀ (s : List Char), SegClean s → hasFFCI s = false
  | [], _ => rfl
  | c :: s', h => by
    have e : hasFFCI (c :: s') = (ciPre ffPat (c :: s') || hasFFCI s') := rfl
    rw [e]
    have h1 : ciPre ffPat (c :: s') = false := by
      have hff : ffPat = '@' :: "font-face".toList := rfl
      rw [hff]
      simp only [ciPre, Bool.and_eq_false_iff]
      left
      simp only [decide_eq_false_iff_not]
      intro hc
      have h2 : ('@' : Char).toLower = '@' := by decide
      rw [h2] at hc
      exact h c (by simp) hc
    rw [h1, hasFFCI_of_SegClean s'
      (fun d hd => h d (List.mem_cons_of_mem c hd))]
    rfl

/-! ### The marker rewriter on decomposed texts -/

theorem markerL_chars_not_at : ∀ c ∈ markerL, c.toLower ≠ '@' := by decide

theorem markerL_no_brace : '\x7d' ∉ markerL := by decide

theorem isPySpace_not_at (a : Char) (h : isPySpace a = true) :
    a.toLower ≠ '@' := by
  unfold isPySpace at h
  simp only [Bool.or_eq_true, decide_eq_true_eq] at h
  rcases h with ((((rfl | rfl) | rfl) | rfl) | rfl) | rfl <;> decide

theorem dropWhile_append_stop (p : Char → Bool) :
    ∀ (u t : List Char), (∀ c, t.head? = some c → p c = false) →
      (u ++ t).dropWhile p = u.dropWhile p ++ t
  | [], t, ht => by
    cases t with
    | nil => rfl
    | cons c t' => simp [List.dropWhile_cons, ht c rfl]
  | c :: u', t, ht => by
    by_cases hc : p c = true
    · simp [List.dropWhile_cons, hc, dropWhile_append_stop p u' t ht]
    · simp [List.dropWhile_cons, hc]

theorem isPrefixOf_append_left (pat u t : List Char)
    (h : pat.isPrefixOf u = true) : pat.isPrefixOf (u ++ t) = true :=
  List.isPrefixOf_iff_prefix.mpr
    (( List.isPrefixOf_iff_prefix.mp h).trans (List.prefix_append u t))

theorem removeMarker_append_aux :
    ∀ (n : Nat) (s t : List Char), s.length ≤ n →
      (t = [] ∨ ∃ a t', t = a :: t' ∧ a.toLower = '@') →
      removeMarker (s ++ t) = removeMarker s ++ removeMarker t := by
  intro n
  induction n with
  | zero =>
    intro s t h1 _
    have : s = [] := List.length_eq_zero.mp (Nat.le_zero.mp h1)
    subst this
    simp [removeMarker_nil]
  | succ n' ih =>
    intro s t h1 ht
    by_cases hp : markerL.isPrefixOf (s ++ t) = true
    · have hps : markerL.isPrefixOf s = true := by
        rcases isPrefixOf_append_split markerL s t hp with h' | ⟨p2, hp2, hpt⟩
        · exact h'
        · cases p2 with
          | nil =>
            rw [List.append_nil] at hp2
            rw [hp2]
            exact List.isPrefixOf_iff_prefix.mpr (List.prefix_refl s)
          | cons q p2' =>
            exfalso
            rcases ht with rfl | ⟨a, t', rfl, ha⟩
            · simp [List.isPrefixOf] at hpt
            · simp only [List.isPrefixOf, Bool.and_eq_true, beq_iff_eq] at hpt
              have hq : q ∈ markerL := by
                rw [hp2]
                exact List.mem_append_right s (List.mem_cons_self q p2')
              exact markerL_chars_not_at q hq (hpt.1 ▸ ha)
      have hlen : markerL.length ≤ s.length := isPrefixOf_length_le markerL s hps
      have hstop : ∀ c, t.head? = some c → isPySpace c = false := by
        intro c hc
        rcases ht with rfl | ⟨a, t', rfl, ha⟩
        · cases hc
        · simp only [List.head?_cons, Option.some.injEq] at hc
          rw [← hc]
          cases hsp : isPySpace a with
          | false => rfl
          | true => exact absurd ha (isPySpace_not_at a hsp)
      have hd1 : (s ++ t).drop markerL.length = s.drop markerL.length ++ t :=
        List.drop_append_of_le_length hlen
      have hd2 : (s.drop markerL.length ++ t).dropWhile isPySpace
          = (s.drop markerL.length).dropWhile isPySpace ++ t :=
        dropWhile_append_stop isPySpace (s.drop markerL.length) t hstop
      rw [removeMarker_pos (s ++ t) hp, removeMarker_pos s hps, hd1, hd2]
      apply ih
      · have hm1 : 1 ≤ markerL.length := by decide
        have hdwle : ((s.drop markerL.length).dropWhile isPySpace).length
            ≤ (s.drop markerL.length).length :=
          (List.dropWhile_suffix isPySpace).length_le
        simp only [List.length_drop] at hdwle ⊢
        omega
      · exact ht
    · cases s with
      | nil => simp [removeMarker_nil]
      | cons c s' =>
        have hpf : markerL.isPrefixOf (c :: (s' ++ t)) = false := by
          cases h2 : markerL.isPrefixOf (c :: (s' ++ t)) with
          | false => rfl
          | true => exact absurd h2 hp
        have hns : markerL.isPrefixOf (c :: s') = false := by
          cases h2 : markerL.isPrefixOf (c :: s') with
          | false => rfl
          | true =>
            exact absurd (isPrefixOf_append_left markerL (c :: s') t h2) hp
        rw [show (c :: s') ++ t = c :: (s' ++ t) from rfl,
          removeMarker_neg c (s' ++ t) hpf, removeMarker_neg c s' hns,
          ih s' t (by simp only [List.length_cons] at h1; omega) ht]
        rfl

theorem removeMarker_append (s t : List Char)
    (ht : t = [] ∨ ∃ a t', t = a :: t' ∧ a.toLower = '@') :
    removeMarker (s ++ t) = removeMarker s ++ removeMarker t :=
  removeMarker_append_aux s.length s t (Nat.le_refl _) ht

theorem removeMarker_block (b t : List Char) (hb : BlockNice b) :
    removeMarker (b ++ t) = b ++ removeMarker t := by
  apply removeMarker_append_of_no_occurrence
  intro v hv hne
  cases hx : markerL.isPrefixOf (v ++ t) with
  | false => rfl
  | true =>
    exfalso
    rcases isPrefixOf_append_split markerL v t hx with h' | ⟨p2, hp2, hpt⟩
    · have := containsSub_of_suffix markerL b v hv h'
      rw [hb.2.2] at this
      cases this
    · obtain ⟨b', hbsplit, -⟩ := block_split_brace b hb.1
      have hvx : '\x7d' ∈ v :=
        suffix_ne_nil_last_mem v b' '\x7d' (hbsplit ▸ hv) hne
      have hvp : v <+: markerL := ⟨p2, hp2.symm⟩
      exact markerL_no_brace (hvp.subset hvx)

theorem removeMarker_interleave :
    ∀ (pairs : List (List Char × List Char)) (tailSeg : List Char),
      (∀ p ∈ pairs, BlockNice p.2) →
      removeMarker (interleaveF pairs tailSeg)
        = interleaveF (pairs.map (fun p => (removeMarker p.1, p.2)))
            (removeMarker tailSeg)
  | [], _, _ => rfl
  | (s, b) :: rest, t, hb => by
    have hbn : BlockNice b := hb (s, b) (by simp)
    obtain ⟨c, b', hbe, hcl⟩ := block_head_at b hbn.1
    have e : interleaveF ((s, b) :: rest) t = s ++ (b ++ interleaveF rest t) := by
      simp [interleaveF]
    rw [e, removeMarker_append s (b ++ interleaveF rest t)
        (Or.inr ⟨c, b' ++ interleaveF rest t, by rw [hbe]; rfl, hcl⟩),
      removeMarker_block b (interleaveF rest t) hbn,
      removeMarker_interleave rest t
        (fun p hp => hb p (List.mem_cons_of_mem _ hp))]
    simp [interleaveF]

theorem removeMarker_subset_aux :
    ∀ (n : Nat) (l : List Char), l.length ≤ n →
      ∀ c ∈ removeMarker l, c ∈ l := by
  intro n
  induction n with
  | zero =>
    intro l h1 c hc
    have : l = [] := List.length_eq_zero.mp (Nat.le_zero.mp h1)
    subst this
    simp only [removeMarker_nil] at hc
    exact hc
  | succ n' ih =>
    intro l h1 c hc
    by_cases hp : markerL.isPrefixOf l = true
    · rw [removeMarker_pos l hp] at hc
      have hlen : markerL.length ≤ l.length := isPrefixOf_length_le markerL l hp
      have hm1 : 1 ≤ markerL.length := by decide
      have hdwle : ((l.drop markerL.length).dropWhile isPySpace).length
          ≤ (l.drop markerL.length).length :=
        (List.dropWhile_suffix isPySpace).length_le
      have hle : ((l.drop markerL.length).dropWhile isPySpace).length ≤ n' := by
        simp only [List.length_drop] at hdwle ⊢
        omega
      have h2 := ih _ hle c hc
      have h3 : c ∈ l.drop markerL.length :=
        (List.dropWhile_sublist isPySpace).subset h2
      exact (List.drop_sublist markerL.length l).subset h3
    · cases l with
      | nil =>
        simp only [removeMarker_nil] at hc
        exact hc
      | cons d rest =>
        have hpf : markerL.isPrefixOf (d :: rest) = false := by
          cases h2 : markerL.isPrefixOf (d :: rest) with
          | false => rfl
          | true => exact absurd h2 hp
        rw [removeMarker_neg d rest hpf] at hc
        rcases List.mem_cons.mp hc with rfl | hc'
        · simp
        · exact List.mem_cons_of_mem d
            (ih rest (by simp only [List.length_cons] at h1; omega) c hc')

theorem SegClean_removeMarker (s : List Char) (h : SegClean s) :
    SegClean (removeMarker s) :=
  fun c hc => h c (removeMarker_subset_aux s.length s (Nat.le_refl _) c hc)

/-! ### The `other_css_rules` computations on decomposed stylesheets -/

theorem edit_other_css_rules_eq (pairs : List (List Char × List Char))
    (tailSeg : List Char)
    (hseg : ∀ p ∈ pairs, SegClean p.1) (hb : ∀ p ∈ pairs, BlockNice p.2)
    (ht : SegClean tailSeg) :
    edit_other_css_rules (interleaveF pairs tailSeg)
      = segsConcat pairs tailSeg := by
  unfold edit_other_css_rules
  rw [scan_interleave pairs tailSeg
    (fun p hp => ⟨hasFFCI_of_SegClean p.1 (hseg p hp), (hb p hp).1⟩)
    (hasFFCI_of_SegClean tailSeg ht)]
  exact fold_replace_interleave pairs tailSeg hseg hb ht

theorem delete_other_css_rules_eq (pairs : List (List Char × List Char))
    (tailSeg : List Char)
    (hseg : ∀ p ∈ pairs, SegClean p.1) (hb : ∀ p ∈ pairs, BlockNice p.2)
    (ht : SegClean tailSeg) :
    delete_other_css_rules (interleaveF pairs tailSeg)
      = segsConcat (pairs.map (fun p => (removeMarker p.1, p.2)))
          (removeMarker tailSeg) := by
  unfold delete_other_css_rules
  rw [scan_interleave pairs tailSeg
    (fun p hp => ⟨hasFFCI_of_SegClean p.1 (hseg p hp), (hb p hp).1⟩)
    (hasFFCI_of_SegClean tailSeg ht)]
  rw [removeMarker_interleave pairs tailSeg hb]
  have e : pairs.map Prod.snd
      = (pairs.map (fun p => (removeMarker p.1, p.2))).map Prod.snd := by
    simp [List.map_map]
  rw [e]
  exact fold_replace_interleave _ _
    (by
      intro p hp
      obtain ⟨q, hq, rfl⟩ := List.mem_map.mp hp
      exact SegClean_removeMarker q.1 (hseg q hq))
    (by
      intro p hp
      obtain ⟨q, hq, rfl⟩ := List.mem_map.mp hp
      exact hb q hq)
    (SegClean_removeMarker tailSeg ht)

/-! ### The full rewrite formulas -/

/-- The rewrite `delete_font` performs, on a decomposed stylesheet: the segments in
original order (marker comments removed), stripped, then one blank line,
then the kept blocks joined by single newlines, stripped, the whole
stripped again and given exactly one trailing newline. -/
theorem delete_css_rewrite_eq (pairs : List (List Char × List Char))
    (tailSeg fam fn : List Char)
    (hseg : ∀ p ∈ pairs, SegClean p.1) (hb : ∀ p ∈ pairs, BlockNice p.2)
    (ht : SegClean tailSeg) :
    delete_css_rewrite (interleaveF pairs tailSeg) fam fn
      = pyStrip (pyStrip
          (pyStrip (segsConcat (pairs.map (fun p => (removeMarker p.1, p.2)))
              (removeMarker tailSeg))
            ++ '\n' :: '\n' :: pyStrip (List.intercalate ['\n']
              ((pairs.map Prod.snd).filter (fun b => !rule_matches fam fn b)))))
        ++ ['\n'] := by
  show pyStrip (pyStrip
      (pyStrip (delete_other_css_rules (interleaveF pairs tailSeg))
        ++ '\n' :: '\n' :: pyStrip (List.intercalate ['\n']
          (blocks_to_keep (interleaveF pairs tailSeg) fam fn)))) ++ ['\n'] = _
  rw [delete_other_css_rules_eq pairs tailSeg hseg hb ht]
  unfold blocks_to_keep
  rw [scan_interleave pairs tailSeg
    (fun p hp => ⟨hasFFCI_of_SegClean p.1 (hseg p hp), (hb p hp).1⟩)
    (hasFFCI_of_SegClean tailSeg ht)]

/-- The rewrite `edit_font` performs, on a decomposed stylesheet: the segments in
original order (verbatim), stripped, then one blank line, then all blocks
in original order — the matching ones rewritten — joined by single
newlines, the whole stripped and given exactly one trailing newline. -/
theorem edit_css_rewrite_eq (pairs : List (List Char × List Char))
    (tailSeg oldF newF fn : List Char)
    (hseg : ∀ p ∈ pairs, SegClean p.1) (hb : ∀ p ∈ pairs, BlockNice p.2)
    (ht : SegClean tailSeg) :
    edit_css_rewrite (interleaveF pairs tailSeg) oldF newF fn
      = pyStrip (pyStrip
          (pyStrip (segsConcat pairs tailSeg)
            ++ '\n' :: '\n' :: List.intercalate ['\n']
              ((pairs.map Prod.snd).map
                (fun b => if rule_matches oldF fn b then replFam newF b else b))))
        ++ ['\n'] := by
  show pyStrip (pyStrip
      (pyStrip (edit_other_css_rules (interleaveF pairs tailSeg))
        ++ '\n' :: '\n' :: List.intercalate ['\n']
          (edit_new_blocks (interleaveF pairs tailSeg) oldF newF fn)))
      ++ ['\n'] = _
  rw [edit_other_css_rules_eq pairs tailSeg hseg hb ht]
  unfold edit_new_blocks
  rw [scan_interleave pairs tailSeg
    (fun p hp => ⟨hasFFCI_of_SegClean p.1 (hseg p hp), (hb p hp).1⟩)
    (hasFFCI_of_SegClean tailSeg ht)]

theorem interleaveF_append_tail :
    ∀ (pairs : List (List Char × List Char)) (t u : List Char),
      interleaveF pairs t ++ u = interleaveF pairs (t ++ u)
  | [], _, _ => rfl
  | (s, b) :: rest, t, u => by
    simp [interleaveF, interleaveF_append_tail rest t u]

theorem interleaveF_snoc :
    ∀ (pairs : List (List Char × List Char)) (s b t : List Char),
      interleaveF (pairs ++ [(s, b)]) t = interleaveF pairs (s ++ (b ++ t))
  | [], s, b, t => by simp [interleaveF]
  | (s', b') :: rest, s, b, t => by
    simp [interleaveF, interleaveF_snoc rest s b t]

/-- Claim C9: for every text decomposed as N font-face blocks (as the block
regex recognises them: no closing brace inside the body) interleaved with
separator texts containing no case-insensitive occurrence of `@font-face`,
the extractor returns exactly the N block strings in source order; for any
text with zero occurrences — including the empty string — it returns the
empty sequence.  (The extractor is a pure function of the text by
construction: it is a Lean function.) -/
theorem claim_C9_extractor (pairs : List (List Char × List Char))
    (tailSeg z : List Char)
    (hp : ∀ p ∈ pairs, hasFFCI p.1 = false ∧ isBlockChars p.2 = true)
    (ht : hasFFCI tailSeg = false) (hz : hasFFCI z = false) :
    get_font_face_blocks (interleaveF pairs tailSeg) = pairs.map Prod.snd
    ∧ get_font_face_blocks z = []
    ∧ get_font_face_blocks [] = [] :=
  ⟨scan_interleave pairs tailSeg hp ht, scan_zero_occurrences z hz, rfl⟩

/-- Witness for C9: a two-block stylesheet (one block with the keyword in
upper case) with plain CSS before, between and after the blocks. -/
theorem claim_C9_extractor_witness :
    get_font_face_blocks
        (interleaveF
          [("body \x7b color: red; \x7d\n".toList,
            "@font-face \x7b font-family: \x27A\x27; \x7d".toList),
           ("\np \x7b margin: 0 \x7d\n".toList,
            "@FONT-FACE\n\x7b font-family: \x27B\x27; \x7d".toList)]
          "\nfooter \x7b top: 1px \x7d".toList)
      = ["@font-face \x7b font-family: \x27A\x27; \x7d".toList,
         "@FONT-FACE\n\x7b font-family: \x27B\x27; \x7d".toList] :=
  (claim_C9_extractor
    [("body \x7b color: red; \x7d\n".toList,
      "@font-face \x7b font-family: \x27A\x27; \x7d".toList),
     ("\np \x7b margin: 0 \x7d\n".toList,
      "@FONT-FACE\n\x7b font-family: \x27B\x27; \x7d".toList)]
    "\nfooter \x7b top: 1px \x7d".toList [] (by decide) (by decide)
    (by decide)).1

/-- Claim C10: when the configuration has no `api_key` (or it is empty) the
authentication check accepts every request and returns `"admin"`; HTTP 401
is raised if and only if a non-empty key is configured and the presented
bearer token differs from it. -/
theorem claim_C10_auth (key cred : Option String) :
    (get_current_user key cred = Except.error 401
        ↔ ∃ k, key = some k ∧ k ≠ "" ∧ cred ≠ some k)
    ∧ (get_current_user key cred = Except.error 401
        ∨ get_current_user key cred = Except.ok "admin") := by
  cases key with
  | none => simp [get_current_user]
  | some k =>
    by_cases hk : k = ""
    · subst hk; simp [get_current_user]
    · cases cred with
      | none => simp [get_current_user, hk]
      | some t =>
        by_cases ht : t = k
        · subst ht; simp [get_current_user, hk]
        · simp [get_current_user, hk, ht]

/-- Claim C4: an `add` whose `fileName` already exists as a file in the font
directory fails with 409 Conflict and performs no mutation: the CSS file is
untouched, the recorded font files are unchanged, and `list()` output is
unchanged. -/
theorem claim_C4_add_conflict (st : ServerState) (fn fam w s : List Char)
    (h : fn ∈ st.fontFiles) :
    (upload_font st fn fam w s).2 = some 409
    ∧ (upload_font st fn fam w s).1.css = st.css
    ∧ (upload_font st fn fam w s).1.fontFiles = st.fontFiles
    ∧ parse_user_css (upload_font st fn fam w s).1.css
        = parse_user_css st.css := by
  simp [upload_font, h]

/-- Witness for C4 at a concrete state. -/
theorem claim_C4_add_conflict_witness :
    (upload_font ⟨false, ["a.woff2".toList], true, some []⟩ "a.woff2".toList
        "Foo".toList "400".toList "normal".toList).2 = some 409 :=
  (claim_C4_add_conflict ⟨false, ["a.woff2".toList], true, some []⟩
    "a.woff2".toList "Foo".toList "400".toList "normal".toList (by decide)).1

/-- Claim C5: delete is lenient and idempotent: every call (including a
second call in a row) returns success; when zero blocks match the compound
key the stylesheet is untouched; when the asset file is absent the recorded
files are untouched. -/
theorem claim_C5_delete_lenient (st : ServerState) (fam fn : List Char) :
    (delete_font st fam fn).2 = none
    ∧ (delete_font (delete_font st fam fn).1 fam fn).2 = none
    ∧ (∀ c, st.css = some c → deleted_count c fam fn = 0 →
        (delete_font st fam fn).1.css = some c)
    ∧ (fn ∉ st.fontFiles → (delete_font st fam fn).1.fontFiles = st.fontFiles) := by
  refine ⟨rfl, rfl, ?_, ?_⟩
  · intro c hc h0
    by_cases hm : fn ∈ st.fontFiles <;>
      simp [delete_font, hc, h0, hm]
  · intro hnot
    cases hcss : st.css with
    | none => simp [delete_font, hcss, hnot]
    | some c =>
      by_cases h0 : 0 < deleted_count c fam fn <;>
        simp [delete_font, hcss, h0, hnot]

/-- Witness for C5 at a concrete state with no matching block and no asset
file. -/
theorem claim_C5_delete_lenient_witness :
    (delete_font ⟨true, [], true, some "x".toList⟩ "A".toList
        "a.woff2".toList).1.css = some "x".toList :=
  (claim_C5_delete_lenient ⟨true, [], true, some "x".toList⟩ "A".toList
    "a.woff2".toList).2.2.1 "x".toList rfl (by decide)

/-- Claim C3: edit fails with 404 Not Found when the stylesheet file is
missing, and when zero blocks match the compound key it fails with 404 and
performs no mutation (the state, including the stylesheet bytes, is
returned unchanged). -/
theorem claim_C3_edit_notfound (st : ServerState) (oldF newF fn : List Char) :
    (st.css = none → edit_font st oldF newF fn = (st, some 404))
    ∧ (∀ c, st.css = some c → edited_count c oldF fn = 0 →
        edit_font st oldF newF fn = (st, some 404)) := by
  constructor
  · intro h; simp [edit_font, h]
  · intro c hc h0; simp [edit_font, hc, h0]

/-- Witness for C3 at a concrete stylesheet with no matching block. -/
theorem claim_C3_edit_notfound_witness :
    edit_font ⟨true, [], true, some "x".toList⟩ "Ghost".toList "New".toList
        "missing.woff2".toList
      = (⟨true, [], true, some "x".toList⟩, some 404) :=
  (claim_C3_edit_notfound ⟨true, [], true, some "x".toList⟩ "Ghost".toList
    "New".toList "missing.woff2".toList).2 "x".toList rfl (by decide)

/-- Claim C7 counterexample: with `user.css` missing but its parent
directory present, the append step of add succeeds and creates the
stylesheet (Python's append-mode `open` creates a missing file), instead of
failing as the claim states. -/
theorem claim_C7_counterexample :
    add_font_to_css ⟨true, ["a.woff2".toList], true, none⟩
        "Foo".toList "400".toList "normal".toList "a.woff2".toList
      = Except.ok ⟨true, ["a.woff2".toList], true,
          some ('\n' :: (pyStrip (new_rule "Foo".toList "400".toList
            "normal".toList "a.woff2".toList) ++ ['\n']))⟩ := rfl

/-- Claim C7 (amended): on a successful add the new block is appended to the
end of the stylesheet; the append requires only the stylesheet's parent
directory: a missing stylesheet file is created by the append, and only a
missing parent directory is an error (HTTP 500) at this step. -/
theorem claim_C7_append_amended (st : ServerState) (fam w s fn : List Char) :
    (∀ c, st.css = some c →
      add_font_to_css st fam w s fn
        = Except.ok { st with
            css := some (c ++ '\n' :: (pyStrip (new_rule fam w s fn) ++ ['\n'])) })
    ∧ (st.css = none → st.cssParentExists = true →
      add_font_to_css st fam w s fn
        = Except.ok { st with
            css := some ('\n' :: (pyStrip (new_rule fam w s fn) ++ ['\n'])) })
    ∧ (st.css = none → st.cssParentExists = false →
      add_font_to_css st fam w s fn = Except.error 500) := by
  refine ⟨?_, ?_, ?_⟩
  · intro c hc; simp [add_font_to_css, hc]
  · intro hc hp; simp [add_font_to_css, hc, hp]
  · intro hc hp; simp [add_font_to_css, hc, hp]

/-- Witness for C7 (amended): the error case at a concrete state with
neither the stylesheet nor its parent directory. -/
theorem claim_C7_append_amended_witness :
    add_font_to_css ⟨true, [], false, none⟩ "Foo".toList "400".toList
        "normal".toList "a.woff2".toList = Except.error 500 :=
  (claim_C7_append_amended ⟨true, [], false, none⟩ "Foo".toList "400".toList
    "normal".toList "a.woff2".toList).2.2 rfl rfl

/-- Claim C1 counterexample: the block below has `font-family` value `Bar`
and src path `/f/a.woff2`, yet for the pair
`(family := "/f/a.woff2", fileName := "a.woff2")` the code's match test
accepts it (the quoted family string occurs inside the `url(...)` and
`/a.woff2` occurs in the path), the spec's identity rule rejects it, and
`delete_font` actually deletes the block, leaving only a newline. -/
theorem claim_C1_counterexample :
    rule_matches "/f/a.woff2".toList "a.woff2".toList
        "@font-face \x7b font-family: \x27Bar\x27; src: url(\x27/f/a.woff2\x27); \x7d".toList
      = true
    ∧ spec_same_rule
        "@font-face \x7b font-family: \x27Bar\x27; src: url(\x27/f/a.woff2\x27); \x7d".toList
        "/f/a.woff2".toList "a.woff2".toList = false
    ∧ (delete_font ⟨true, [], true,
          some "@font-face \x7b font-family: \x27Bar\x27; src: url(\x27/f/a.woff2\x27); \x7d".toList⟩
        "/f/a.woff2".toList "a.woff2".toList).1.css = some ['\n'] := by
  refine ⟨by decide, by decide, by decide⟩

/-- Claim C1 (amended): delete and edit treat a block as "the same rule" as
`(family, fileName)` iff `family` enclosed in matching single or double
quotes occurs as a substring anywhere in the block text AND the substring
`/fileName` occurs anywhere in the block text — not necessarily as the
block's `font-family` value or as a suffix of its `src` path.  Delete keeps
exactly the blocks failing this test and edit rewrites exactly the blocks
passing it. -/
theorem claim_C1_same_rule_amended (content fam newF fn : List Char) :
    (∀ b ∈ get_font_face_blocks content,
      (b ∈ blocks_to_keep content fam fn ↔
        ((containsSub ('\x27' :: (fam ++ ['\x27'])) b
            || containsSub ('\x22' :: (fam ++ ['\x22'])) b)
          && containsSub ('/' :: fn) b) = false))
    ∧ edit_new_blocks content fam newF fn
        = (get_font_face_blocks content).map
            (fun b =>
              if ((containsSub ('\x27' :: (fam ++ ['\x27'])) b
                    || containsSub ('\x22' :: (fam ++ ['\x22'])) b)
                  && containsSub ('/' :: fn) b) = true
              then replFam newF b else b) := by
  constructor
  · intro b hb
    show b ∈ blocks_to_keep content fam fn ↔ rule_matches fam fn b = false
    simp [blocks_to_keep, List.mem_filter, hb]
  · simp [edit_new_blocks, rule_matches]

/-- Witness for C1 (amended) at a one-block stylesheet. -/
theorem claim_C1_same_rule_amended_witness :
    "@font-face \x7b font-family: \x27A\x27; src: url(\x27/f/a.woff2\x27); \x7d".toList
      ∈ blocks_to_keep
          "@font-face \x7b font-family: \x27A\x27; src: url(\x27/f/a.woff2\x27); \x7d".toList
          "B".toList "b.woff2".toList :=
  ((claim_C1_same_rule_amended
      "@font-face \x7b font-family: \x27A\x27; src: url(\x27/f/a.woff2\x27); \x7d".toList
      "B".toList "New".toList "b.woff2".toList).1
    "@font-face \x7b font-family: \x27A\x27; src: url(\x27/f/a.woff2\x27); \x7d".toList
    (by decide)).mpr (by decide)

theorem delete_font_css_of_match (st : ServerState)
    (content fam fn : List Char) (hcss : st.css = some content)
    (hm : 0 < deleted_count content fam fn) :
    (delete_font st fam fn).1.css = some (delete_css_rewrite content fam fn) := by
  by_cases hf : fn ∈ st.fontFiles <;> simp [delete_font, hcss, hm, hf]

set_option maxRecDepth 40000 in
/-- Claim C6 counterexample: deleting family `A` from a stylesheet with
three blocks keeps the `B` and `C` blocks separated by a single newline and
not by a blank line, contradicting "the kept blocks each separated by blank
lines". -/
theorem claim_C6_counterexample :
    (delete_font ⟨true, [], true,
        some ("x \x7b y \x7d\n@font-face \x7b font-family: \x27A\x27; src: url(\x27/f/a.woff2\x27); \x7d\n@font-face \x7b font-family: \x27B\x27; src: url(\x27/f/b.woff2\x27); \x7d\n@font-face \x7b font-family: \x27C\x27; src: url(\x27/f/c.woff2\x27); \x7d".toList)⟩
        "A".toList "a.woff2".toList).1.css
      = some ("x \x7b y \x7d\n\n@font-face \x7b font-family: \x27B\x27; src: url(\x27/f/b.woff2\x27); \x7d\n@font-face \x7b font-family: \x27C\x27; src: url(\x27/f/c.woff2\x27); \x7d\n".toList)
    ∧ containsSub "b.woff2\x27); \x7d\n@font-face".toList
        "x \x7b y \x7d\n\n@font-face \x7b font-family: \x27B\x27; src: url(\x27/f/b.woff2\x27); \x7d\n@font-face \x7b font-family: \x27C\x27; src: url(\x27/f/c.woff2\x27); \x7d\n".toList
      = true
    ∧ containsSub "b.woff2\x27); \x7d\n\n@font-face".toList
        "x \x7b y \x7d\n\n@font-face \x7b font-family: \x27B\x27; src: url(\x27/f/b.woff2\x27); \x7d\n@font-face \x7b font-family: \x27C\x27; src: url(\x27/f/c.woff2\x27); \x7d\n".toList
      = false := by
  refine ⟨by decide, by decide, by decide⟩

/-- Claim C6 (amended): for every delete call on a decomposed stylesheet
that removes at least one matching block, the stylesheet is rebuilt as: the
content with every recognized block stripped and the panel marker comments
stripped (that is, the segments in order with markers removed), stripped of
surrounding whitespace, then one blank line, then the kept blocks joined by
single newlines (not blank lines), the whole trimmed and written with
exactly one trailing newline. -/
theorem claim_C6_delete_rebuild (st : ServerState)
    (pairs : List (List Char × List Char)) (tailSeg fam fn : List Char)
    (hcss : st.css = some (interleaveF pairs tailSeg))
    (hseg : ∀ p ∈ pairs, SegClean p.1) (hb : ∀ p ∈ pairs, BlockNice p.2)
    (ht : SegClean tailSeg)
    (hmatch : 0 < (pairs.map Prod.snd).countP (fun b => rule_matches fam fn b)) :
    (delete_font st fam fn).1.css
      = some (pyStrip (pyStrip
          (pyStrip (segsConcat (pairs.map (fun p => (removeMarker p.1, p.2)))
              (removeMarker tailSeg))
            ++ '\n' :: '\n' :: pyStrip (List.intercalate ['\n']
              ((pairs.map Prod.snd).filter (fun b => !rule_matches fam fn b)))))
          ++ ['\n']) := by
  have hdc : deleted_count (interleaveF pairs tailSeg) fam fn
      = (pairs.map Prod.snd).countP (fun b => rule_matches fam fn b) := by
    unfold deleted_count
    rw [scan_interleave pairs tailSeg
      (fun p hp => ⟨hasFFCI_of_SegClean p.1 (hseg p hp), (hb p hp).1⟩)
      (hasFFCI_of_SegClean tailSeg ht)]
  have hm2 : 0 < deleted_count (interleaveF pairs tailSeg) fam fn := by
    rw [hdc]
    exact hmatch
  rw [delete_font_css_of_match st _ fam fn hcss hm2,
    delete_css_rewrite_eq pairs tailSeg fam fn hseg hb ht]

set_option maxRecDepth 40000 in
/-- Witness for C6 (amended) at a one-matching-block stylesheet with a
plain rule before it. -/
theorem claim_C6_delete_rebuild_witness :
    (delete_font ⟨true, [], true,
        some (interleaveF
          [("p \x7b q \x7d\n".toList,
            "@font-face \x7b font-family: \x27A\x27; src: url(\x27/f/a.woff2\x27); \x7d".toList)]
          "\nz \x7b w \x7d".toList)⟩
        "A".toList "a.woff2".toList).1.css
      = some "p \x7b q \x7d\n\nz \x7b w \x7d\n".toList := by
  rw [claim_C6_delete_rebuild ⟨true, [], true,
      some (interleaveF
        [("p \x7b q \x7d\n".toList,
          "@font-face \x7b font-family: \x27A\x27; src: url(\x27/f/a.woff2\x27); \x7d".toList)]
        "\nz \x7b w \x7d".toList)⟩
    [("p \x7b q \x7d\n".toList,
      "@font-face \x7b font-family: \x27A\x27; src: url(\x27/f/a.woff2\x27); \x7d".toList)]
    "\nz \x7b w \x7d".toList "A".toList "a.woff2".toList rfl
    (by decide) (by decide) (by decide) (by decide)]
  decide

set_option maxRecDepth 40000 in
/-- Claim C2 counterexample: a stylesheet whose non-font-face content is a
marker comment followed by a `body` rule; deleting the one font-face block
also removes the marker comment, so the non-font-face content does not
survive verbatim. -/
theorem claim_C2_counterexample :
    (delete_font ⟨true, [], true,
        some ("/* --- Added by Font Manager Panel --- */\nbody \x7b color: red; \x7d\n@font-face \x7b font-family: \x27A\x27; src: url(\x27/f/a.woff2\x27); \x7d".toList)⟩
        "A".toList "a.woff2".toList).1.css
      = some "body \x7b color: red; \x7d\n".toList
    ∧ containsSub markerL
        "/* --- Added by Font Manager Panel --- */\nbody \x7b color: red; \x7d\n@font-face \x7b font-family: \x27A\x27; src: url(\x27/f/a.woff2\x27); \x7d".toList
      = true
    ∧ containsSub markerL "body \x7b color: red; \x7d\n".toList = false := by
  refine ⟨by decide, by decide, by decide⟩

/-- Claim C2 (amended): on a decomposed stylesheet the non-font-face
segments survive add, delete and edit in their original relative order,
verbatim except for (a) whitespace normalization at the boundaries, (b)
being placed before the retained blocks, and (c) delete removing every
occurrence of the panel marker comment together with its trailing
whitespace — segments free of the marker are preserved exactly.  Stated
as: the remainder delete rebuilds from is exactly the segments with
markers removed; the remainder edit rebuilds from is exactly the segments
verbatim; marker removal is the identity on marker-free text; and add
leaves the entire previous stylesheet verbatim as a prefix of the new
one. -/
theorem claim_C2_unrelated_content (pairs : List (List Char × List Char))
    (tailSeg fam fn oldF newF : List Char)
    (hseg : ∀ p ∈ pairs, SegClean p.1) (hb : ∀ p ∈ pairs, BlockNice p.2)
    (ht : SegClean tailSeg) :
    delete_css_rewrite (interleaveF pairs tailSeg) fam fn
      = pyStrip (pyStrip
          (pyStrip (segsConcat (pairs.map (fun p => (removeMarker p.1, p.2)))
              (removeMarker tailSeg))
            ++ '\n' :: '\n' :: pyStrip (List.intercalate ['\n']
              ((pairs.map Prod.snd).filter (fun b => !rule_matches fam fn b)))))
        ++ ['\n']
    ∧ edit_css_rewrite (interleaveF pairs tailSeg) oldF newF fn
      = pyStrip (pyStrip
          (pyStrip (segsConcat pairs tailSeg)
            ++ '\n' :: '\n' :: List.intercalate ['\n']
              ((pairs.map Prod.snd).map
                (fun b => if rule_matches oldF fn b then replFam newF b else b))))
        ++ ['\n']
    ∧ (∀ s, containsSub markerL s = false → removeMarker s = s)
    ∧ (∀ (st : ServerState) (c w s fname : List Char), st.css = some c →
        add_font_to_css st fam w s fname
          = Except.ok { st with
              css := some (c ++ '\n' :: (pyStrip (new_rule fam w s fname) ++ ['\n'])) }) := by
  refine ⟨delete_css_rewrite_eq pairs tailSeg fam fn hseg hb ht,
    edit_css_rewrite_eq pairs tailSeg oldF newF fn hseg hb ht,
    fun s hs => removeMarker_id s hs, ?_⟩
  intro st c w s fname hc
  simp [add_font_to_css, hc]

set_option maxRecDepth 40000 in
/-- Witness for C2 (amended): the edit half at a concrete stylesheet whose
`body` rule survives the edit verbatim. -/
theorem claim_C2_unrelated_content_witness :
    edit_css_rewrite
        (interleaveF
          [("body \x7b color: red; \x7d\n".toList,
            "@font-face \x7b font-family: \x27A\x27; src: url(\x27/f/a.woff2\x27); \x7d".toList)]
          "".toList)
        "A".toList "C".toList "a.woff2".toList
      = "body \x7b color: red; \x7d\n\n@font-face \x7b font-family: \x27C\x27; src: url(\x27/f/a.woff2\x27); \x7d\n".toList := by
  rw [(claim_C2_unrelated_content
    [("body \x7b color: red; \x7d\n".toList,
      "@font-face \x7b font-family: \x27A\x27; src: url(\x27/f/a.woff2\x27); \x7d".toList)]
    "".toList "A".toList "a.woff2".toList "A".toList "C".toList
    (by decide) (by decide) (by decide)).2.1]
  decide

set_option maxRecDepth 40000 in
/-- Claim C8 counterexample: the stylesheet already carries a
`(Foo, a.woff2)` rule while the asset file is absent, so `add` succeeds and
a subsequent `list()` contains the entry twice, not exactly once. -/
theorem claim_C8_counterexample :
    (upload_font ⟨true, [], true,
        some "@font-face \x7b font-family: \x27Foo\x27; src: url(\x27/f/a.woff2\x27); \x7d".toList⟩
        "a.woff2".toList "Foo".toList "400".toList "normal".toList).2 = none
    ∧ ((parse_user_css (upload_font ⟨true, [], true,
          some "@font-face \x7b font-family: \x27Foo\x27; src: url(\x27/f/a.woff2\x27); \x7d".toList⟩
          "a.woff2".toList "Foo".toList "400".toList "normal".toList).1.css).count
        ("Foo".toList, "a.woff2".toList)) = 2 := by
  refine ⟨by decide, by decide⟩

set_option maxRecDepth 40000 in
/-- Claim C8 (amended): on a decomposed stylesheet, after
`add(bytes, "a.woff2", "Foo", "400", "normal")` succeeds `list()` equals
the previous listing with `(Foo, a.woff2)` appended exactly once more —
hence exactly once when the stylesheet listed no such entry before the
call. -/
theorem claim_C8_add_then_list (st : ServerState)
    (pairs : List (List Char × List Char)) (tailSeg : List Char)
    (hcss : st.css = some (interleaveF pairs tailSeg))
    (hseg : ∀ p ∈ pairs, SegClean p.1)
    (hb : ∀ p ∈ pairs, isBlockChars p.2 = true)
    (ht : SegClean tailSeg)
    (hnf : "a.woff2".toList ∉ st.fontFiles) :
    (upload_font st "a.woff2".toList "Foo".toList "400".toList
        "normal".toList).2 = none
    ∧ parse_user_css (upload_font st "a.woff2".toList "Foo".toList
          "400".toList "normal".toList).1.css
        = parse_user_css st.css ++ [("Foo".toList, "a.woff2".toList)]
    ∧ (("Foo".toList, "a.woff2".toList) ∉ parse_user_css st.css →
        (parse_user_css (upload_font st "a.woff2".toList "Foo".toList
            "400".toList "normal".toList).1.css).count
          ("Foo".toList, "a.woff2".toList) = 1) := by
  have hdata : pyStrip (new_rule "Foo".toList "400".toList "normal".toList
      "a.woff2".toList)
      = markerL ++ '\n' :: "@font-face \x7b\n  font-family: \x27Foo\x27;\n  src: url(\x27/webfonts/myfonts/a.woff2\x27);\n  font-weight: 400;\n  font-style: normal;\n\x7d".toList := by
    decide
  have hnf' : ['a', '.', 'w', 'o', 'f', 'f', '2'] ∉ st.fontFiles := hnf
  have hupload : upload_font st "a.woff2".toList "Foo".toList "400".toList
      "normal".toList
      = ({ st with
            fontDirExists := true
            fontFiles := st.fontFiles ++ ["a.woff2".toList]
            css := some (interleaveF pairs tailSeg
              ++ '\n' :: (pyStrip (new_rule "Foo".toList "400".toList
                "normal".toList "a.woff2".toList) ++ ['\n'])) }, none) := by
    simp [upload_font, hnf, hnf', add_font_to_css, hcss]
  have hregroup : interleaveF pairs tailSeg
      ++ '\n' :: (pyStrip (new_rule "Foo".toList "400".toList "normal".toList
        "a.woff2".toList) ++ ['\n'])
      = interleaveF (pairs ++ [(tailSeg ++ '\n' :: (markerL ++ ['\n']),
          "@font-face \x7b\n  font-family: \x27Foo\x27;\n  src: url(\x27/webfonts/myfonts/a.woff2\x27);\n  font-weight: 400;\n  font-style: normal;\n\x7d".toList)])
        ['\n'] := by
    rw [hdata, interleaveF_snoc, interleaveF_append_tail]
    congr 1
    simp
  have hscan : get_font_face_blocks (interleaveF
      (pairs ++ [(tailSeg ++ '\n' :: (markerL ++ ['\n']),
        "@font-face \x7b\n  font-family: \x27Foo\x27;\n  src: url(\x27/webfonts/myfonts/a.woff2\x27);\n  font-weight: 400;\n  font-style: normal;\n\x7d".toList)])
      ['\n'])
      = pairs.map Prod.snd
        ++ ["@font-face \x7b\n  font-family: \x27Foo\x27;\n  src: url(\x27/webfonts/myfonts/a.woff2\x27);\n  font-weight: 400;\n  font-style: normal;\n\x7d".toList] := by
    have hfix : ∀ c ∈ ('\n' :: (markerL ++ ['\n'])), c.toLower ≠ '@' := by
      decide
    rw [scan_interleave _ ['\n']
      (by
        intro p hp
        rcases List.mem_append.mp hp with hp' | hp'
        · exact ⟨hasFFCI_of_SegClean p.1 (hseg p hp'), hb p hp'⟩
        · simp only [List.mem_singleton] at hp'
          subst hp'
          constructor
          · apply hasFFCI_of_SegClean
            intro c hc
            rcases List.mem_append.mp hc with hc' | hc'
            · exact ht c hc'
            · exact hfix c hc'
          · show isBlockChars "@font-face \x7b\n  font-family: \x27Foo\x27;\n  src: url(\x27/webfonts/myfonts/a.woff2\x27);\n  font-weight: 400;\n  font-style: normal;\n\x7d".toList = true
            decide)
      (by decide)]
    simp
  have hscan0 : get_font_face_blocks (interleaveF pairs tailSeg)
      = pairs.map Prod.snd :=
    scan_interleave pairs tailSeg
      (fun p hp => ⟨hasFFCI_of_SegClean p.1 (hseg p hp), hb p hp⟩)
      (hasFFCI_of_SegClean tailSeg ht)
  have hparse : parse_user_css (upload_font st "a.woff2".toList "Foo".toList
      "400".toList "normal".toList).1.css
      = parse_user_css st.css ++ [("Foo".toList, "a.woff2".toList)] := by
    rw [hupload, hcss]
    show ((get_font_face_blocks _).filterMap parse_block) = _
    rw [hregroup, hscan]
    rw [List.filterMap_append]
    show _ = (get_font_face_blocks (interleaveF pairs tailSeg)).filterMap
      parse_block ++ _
    rw [hscan0]
    congr 1
  refine ⟨by rw [hupload], hparse, ?_⟩
  intro hnotin
  rw [hparse, List.count_append]
  rw [List.count_eq_zero_of_not_mem hnotin]
  decide

set_option maxRecDepth 40000 in
/-- Witness for C8 (amended) at a stylesheet with one unrelated block. -/
theorem claim_C8_add_then_list_witness :
    parse_user_css (upload_font ⟨true, [], true,
        some (interleaveF
          [("body \x7b color: red; \x7d\n".toList,
            "@font-face \x7b font-family: \x27A\x27; src: url(\x27/f/b.woff2\x27); \x7d".toList)]
          "\n".toList)⟩
        "a.woff2".toList "Foo".toList "400".toList "normal".toList).1.css
      = parse_user_css (some (interleaveF
          [("body \x7b color: red; \x7d\n".toList,
            "@font-face \x7b font-family: \x27A\x27; src: url(\x27/f/b.woff2\x27); \x7d".toList)]
          "\n".toList))
        ++ [("Foo".toList, "a.woff2".toList)] :=
  (claim_C8_add_then_list ⟨true, [], true,
      some (interleaveF
        [("body \x7b color: red; \x7d\n".toList,
          "@font-face \x7b font-family: \x27A\x27; src: url(\x27/f/b.woff2\x27); \x7d".toList)]
        "\n".toList)⟩
    [("body \x7b color: red; \x7d\n".toList,
      "@font-face \x7b font-family: \x27A\x27; src: url(\x27/f/b.woff2\x27); \x7d".toList)]
    "\n".toList rfl (by decide) (by decide) (by decide) (by decide)).2.1

end FontManager
